import Mathlib

/-!
Verification of the `autarkydotai` pretty-printer against its specification.

This file gives a shallow embedding of the recursive renderer
`autarkydotai.utils._pprint._safe_repr`, of the layout loops
`_PrettyPrinter._format_items` / `_format_params_or_dict_items`, and of the
character-budget truncation in `autarkydotai.utils.mixins.ReprMixin.__repr__`,
and proves or refutes the frozen claims about them.

Python objects are modelled as a heap: a finite association list from object
identities (`id(object)` in Python) to nodes.  A node is one of the shapes
`_safe_repr` distinguishes: a builtin scalar, a dict, a list, a tuple, a
`ReprMixin` instance (type name plus `get_params` items), or the fallback case
(any other object, carrying its type name and its `repr` string).  The
cycle-detection `context` dict is modelled as the list of registered
identities, and the unbounded Python recursion is modelled with a fuel
parameter: `none` means the fuel was exhausted, so a theorem that a call with
a stated fuel is not `none` is a termination theorem.
-/

/-- Scalar Python values appearing in the model: members of
`pprint._builtin_scalars` that the claims exercise (`int`, `bool`, `str`,
`None`).  Strings are restricted to ones whose `repr` is a plain
quote-wrapping (no escape processing). -/
inductive SVal where
  | int (n : Int)
  | bool (b : Bool)
  | str (s : String)
  | none_ : SVal
deriving DecidableEq, Repr

/-- A single-quote character, as Python `repr` uses around strings. -/
def pyq : String := String.mk [Char.ofNat 39]

/-- Left curly brace as a string. -/
def lb : String := "\x7b"

/-- Right curly brace as a string. -/
def rb : String := "\x7d"

/-- Python `repr` of a scalar, on the modelled fragment: `repr(5) = "5"`,
`repr(True) = "True"`, `repr('a') = "'a'"`, `repr(None) = "None"`. -/
def reprSVal : SVal → String
  | .int n => toString n
  | .bool b => if b then "True" else "False"
  | .str s => pyq ++ s ++ pyq
  | .none_ => "None"

/-- Object identities (Python `id(object)`). -/
abbrev ObjId := Nat

/-- Heap node: the shape `_safe_repr` dispatches on.  `dict` items are in the
mapping's iteration (insertion) order; `named` models a `ReprMixin` instance
with its class name and the `get_params(deep=False)` items in iteration
order; `other` is any value falling through to the final `repr(object)`
fallback, carrying the Python type name and the `repr` string. -/
inductive Node where
  | scalar (v : SVal)
  | dict (items : List (ObjId × ObjId))
  | list (items : List ObjId)
  | tuple (items : List ObjId)
  | named (name : String) (params : List (String × ObjId))
  | other (typeName : String) (r : String)
deriving DecidableEq, Repr

/-- A heap: association list from object identity to node. -/
abbrev Heap := List (ObjId × Node)

/-- Heap lookup by object identity (first match). -/
def hfind : Heap → ObjId → Option Node
  | [], _ => none
  | (j, n) :: t, i => if i = j then some n else hfind t i

/-- The identities present in a heap. -/
def heapIds (h : Heap) : List ObjId := h.map Prod.fst

/-- Python `str(type)` for a class name `n`: `<class 'n'>`. -/
def clsOf (n : String) : String := "<class " ++ pyq ++ n ++ pyq ++ ">"

/-- Python `str(type(obj))` for a modelled node, used by the
`pprint._safe_key` comparison fallback. -/
def pyTypeStr (h : Heap) (i : ObjId) : String :=
  match hfind h i with
  | some (.scalar (.int _)) => clsOf "int"
  | some (.scalar (.bool _)) => clsOf "bool"
  | some (.scalar (.str _)) => clsOf "str"
  | some (.scalar .none_) => clsOf "NoneType"
  | some (.dict _) => clsOf "dict"
  | some (.list _) => clsOf "list"
  | some (.tuple _) => clsOf "tuple"
  | some (.named n _) => clsOf n
  | some (.other tn _) => clsOf tn
  | none => ""

/-- Python numeric value of a scalar when it belongs to the numeric tower of
the model (`bool` is a subclass of `int`, `True == 1`). -/
def numVal : SVal → Option Int
  | .int n => some n
  | .bool b => some (if b then 1 else 0)
  | _ => none

/-- Python `a < b` between two modelled scalars, when the comparison is
defined (`some` result); `none` models the `TypeError` that makes
`pprint._safe_key.__lt__` fall back to comparing `(str(type), id)`.
`None < None` raises `TypeError` in Python, hence `none` here. -/
def svalCmp (a b : SVal) : Option Bool :=
  match numVal a, numVal b with
  | some x, some y => some (decide (x < y))
  | _, _ =>
    match a, b with
    | .str s, .str t => some (decide (s < t))
    | _, _ => none

/-- Model of `pprint._safe_key.__lt__`: compare the objects with `<`; on
`TypeError` compare `(str(type(obj)), id(obj))` lexicographically. -/
def safeKeyLt (h : Heap) (x y : ObjId) : Bool :=
  match hfind h x, hfind h y with
  | some (.scalar a), some (.scalar b) =>
    (svalCmp a b).getD (decide (pyTypeStr h x < pyTypeStr h y) ||
      (decide (pyTypeStr h x = pyTypeStr h y) && decide (x < y)))
  | _, _ =>
    decide (pyTypeStr h x < pyTypeStr h y) ||
      (decide (pyTypeStr h x = pyTypeStr h y) && decide (x < y))

/-- Model of comparing `pprint._safe_tuple (k, v)` pairs.  Since `_safe_key`
defines `__lt__` but not `__eq__`, the freshly built wrapper objects are
never `==`, so Python's tuple comparison is decided entirely by the first
components: the keys. -/
def safeTupleLt (h : Heap) (p q : ObjId × ObjId) : Bool :=
  safeKeyLt h p.1 q.1

/-- Insert into a sorted list, placing `a` after every element strictly below
it and before the first element not below it; with `lt` the comparison this
is the stable-sort insertion matching Python `sorted` on tie-free inputs. -/
def insertSorted (lt : α → α → Bool) (a : α) : List α → List α
  | [] => [a]
  | b :: bs => if lt b a then b :: insertSorted lt a bs else a :: b :: bs

/-- Model of Python `sorted` (a stable comparison sort) as insertion sort
with the strict comparison `lt`. -/
def pySorted (lt : α → α → Bool) (l : List α) : List α :=
  l.foldr (insertSorted lt) []

/-- Comparison of `get_params` items by `pprint._safe_tuple`: the keys are
Python `str` objects, which `pprint._safe_key` compares directly with `<`
(string comparison never raises `TypeError`), and as with dict items the
comparison never reaches the second component. -/
def paramLt (p q : String × ObjId) : Bool := decide (p.1 < q.1)

/-- Model of `pprint._recursion(object)`:
`<Recursion on TYPENAME with id=ID>`. -/
def recursionMarker (typeName : String) (i : ObjId) : String :=
  "<Recursion on " ++ typeName ++ " with id=" ++ toString i ++ ">"

/-- Sequence a list of optional results; `none` as soon as one is `none`.
Used to propagate fuel exhaustion out of the child renderings. -/
def seqo : List (Option α) → Option (List α)
  | [] => some []
  | o :: os => o.bind fun a => (seqo os).map fun as => a :: as

/-- Python `str.strip("'")`: remove every leading and trailing single-quote
character. -/
def stripQuotes (s : String) : String :=
  String.mk (((s.toList.dropWhile (· = Char.ofNat 39)).reverse.dropWhile
    (· = Char.ofNat 39)).reverse)

/-- Result triple of `_safe_repr`: `(repr string, readable, recursive)`. -/
abbrev RRes := String × Bool × Bool

/-- Shallow embedding of `autarkydotai.utils._pprint._safe_repr`.

Arguments mirror the Python signature: the object (as a heap identity), the
cycle-detection `context` (as the list of registered identities), `maxlevels`
(`0` models Python `None`/`0`, i.e. no depth limit, because the guard is
`if maxlevels and level >= maxlevels`) and `level`.  The extra `fuel`
argument makes the unbounded recursion well-founded; `none` means the fuel
ran out.  Branches follow the source order exactly: builtin scalars; dicts
(emptiness, depth limit, cycle check, registration, sort by
`pprint._safe_tuple`, children at `level + 1`, deregistration); lists and
tuples (format selection including the singleton-tuple trailing comma, then
the same guard sequence, children in original order); `ReprMixin` instances
(depth limit returns the dict placeholder, cycle check, `get_params` items
sorted by `pprint._safe_tuple`, keys rendered with quotes stripped); and the
final `repr(object)` fallback whose readable flag is
`rep and not rep.startswith('<')`. -/
def safeRepr (h : Heap) : Nat → ObjId → List ObjId → Nat → Nat → Option RRes
  | 0, _, _, _, _ => none
  | fuel + 1, objid, ctx, maxlevels, level =>
    match hfind h objid with
    | none => some ("<missing>", false, false)
    | some (.scalar v) => some (reprSVal v, true, false)
    | some (.dict items) =>
      if items = [] then some (lb ++ rb, true, false)
      else if maxlevels ≠ 0 ∧ maxlevels ≤ level then
        some (lb ++ "..." ++ rb, false, decide (objid ∈ ctx))
      else if objid ∈ ctx then
        some (recursionMarker "dict" objid, false, true)
      else
        match seqo ((pySorted (safeTupleLt h) items).map fun kv =>
            (safeRepr h fuel kv.1 (objid :: ctx) maxlevels (level + 1)).bind fun k =>
              (safeRepr h fuel kv.2 (objid :: ctx) maxlevels (level + 1)).map fun v =>
                (k.1 ++ ": " ++ v.1, k.2.1 && v.2.1, k.2.2 || v.2.2)) with
        | none => none
        | some rs =>
          some (lb ++ ", ".intercalate (rs.map (·.1)) ++ rb,
            rs.all (·.2.1), rs.any (·.2.2))
    | some (.list items) =>
      if items = [] then some ("[]", true, false)
      else if maxlevels ≠ 0 ∧ maxlevels ≤ level then
        some ("[...]", false, decide (objid ∈ ctx))
      else if objid ∈ ctx then
        some (recursionMarker "list" objid, false, true)
      else
        match seqo (items.map fun o =>
            safeRepr h fuel o (objid :: ctx) maxlevels (level + 1)) with
        | none => none
        | some rs =>
          some ("[" ++ ", ".intercalate (rs.map (·.1)) ++ "]",
            rs.all (·.2.1), rs.any (·.2.2))
    | some (.tuple items) =>
      -- format selection first, as in the source: '(%s,)' for singletons,
      -- '()' returned immediately for the empty tuple, '(%s)' otherwise
      let fmt := fun (body : String) =>
        if items.length = 1 then "(" ++ body ++ ",)" else "(" ++ body ++ ")"
      if items = [] then some ("()", true, false)
      else if maxlevels ≠ 0 ∧ maxlevels ≤ level then
        some (fmt "...", false, decide (objid ∈ ctx))
      else if objid ∈ ctx then
        some (recursionMarker "tuple" objid, false, true)
      else
        match seqo (items.map fun o =>
            safeRepr h fuel o (objid :: ctx) maxlevels (level + 1)) with
        | none => none
        | some rs =>
          some (fmt (", ".intercalate (rs.map (·.1))),
            rs.all (·.2.1), rs.any (·.2.2))
    | some (.named name params) =>
      if maxlevels ≠ 0 ∧ maxlevels ≤ level then
        some (lb ++ "..." ++ rb, false, decide (objid ∈ ctx))
      else if objid ∈ ctx then
        some (recursionMarker name objid, false, true)
      else
        -- the key is a `str` scalar, so its `_safe_repr` is
        -- `(repr(k), True, False)`: `readable and True and vreadable` is
        -- `vreadable`, and `krecur or vrecur` is `vrecur` (`v.2` below)
        match seqo ((pySorted paramLt params).map
            fun kv =>
              (safeRepr h fuel kv.2 (objid :: ctx) maxlevels (level + 1)).map fun v =>
                (stripQuotes (reprSVal (.str kv.1)) ++ "=" ++ v.1, v.2)) with
        | none => none
        | some rs =>
          some (name ++ "(" ++ ", ".intercalate (rs.map (·.1)) ++ ")",
            rs.all (·.2.1), rs.any (·.2.2))
    | some (.other _ r) =>
      some (r, decide (r ≠ "") && !r.startsWith "<", false)

/-- Termination measure for `safeRepr`: the number of distinct heap
identities not yet registered in the context.  Every container expansion
registers one such identity, so this bounds the remaining recursion depth. -/
def measureB (h : Heap) (ctx : List ObjId) : Nat :=
  ((heapIds h).dedup.filter (fun i => !decide (i ∈ ctx))).length

/-- The wrapping separator of the layout loops:
`',\n' + ' ' * indent`. -/
def delimNl (indent : Nat) : String :=
  ",\n" ++ String.mk (List.replicate indent ' ')

/-- Shallow embedding of the `while not last` loop shared by
`_PrettyPrinter._format_items` and
`_PrettyPrinter._format_params_or_dict_items` (the two Python loops are
identical except for how an entry's flat representation `rep` and its full
recursive rendering are computed, which are the `rep` and `ff` parameters
here, and for the `KeyValTuple` wrapping hidden inside `ff`).

State per iteration: the current entry `ent` (Python's lookahead `next_ent`),
the remaining entries `rest`, the pending separator `delim`, the running
budgets `width` and `maxWidth`, and the consumed-entry counter `nItems`.
`rep ent` models `self._repr(ent, context, level)` and
`ff ent indent allowance` models `self._format(ent, stream, indent,
allowance, context, level)` writing at the stream position (both are opaque
parameters: the loop never inspects their output).  Mirrors the source: the
element-count check `n_items == self.n_max_elements_to_show` first; the
`last` bookkeeping subtracting `allowance` from both budgets; in compact
mode the width reset `width = max_width` and conditional separator switch to
newline+indent when `width < w`, then consumption on the line when
`width >= w`; otherwise the fall-through to the full recursive rendering
with `allowance if last else 1`. -/
def fmtLoop (rep : α → String) (ff : α → Nat → Nat → String) (indent : Nat)
    (allowance : Nat) (nMax : Option Nat) (compact : Bool) :
    α → List α → String → Int → Int → Nat → String
  | ent, rest, delim, width0, maxWidth0, nItems =>
    if nMax = some nItems then ", ..."
    else
      let last := rest.isEmpty
      let width := if last then width0 - allowance else width0
      let maxWidth := if last then maxWidth0 - allowance else maxWidth0
      let r := rep ent
      let w : Int := (r.length : Int) + 2
      let reset := compact ∧ width < w
      let width' := if reset then maxWidth else width
      let delim' := if reset ∧ delim ≠ "" then delimNl indent else delim
      if compact ∧ w ≤ width' then
        (delim' ++ r) ++
          (match rest with
            | [] => ""
            | e :: rs =>
              fmtLoop rep ff indent allowance nMax compact e rs ", "
                (width' - w) maxWidth (nItems + 1))
      else
        (delim' ++ ff ent indent (if last then allowance else 1)) ++
          (match rest with
            | [] => ""
            | e :: rs =>
              fmtLoop rep ff indent allowance nMax compact e rs
                (delimNl indent) width' maxWidth (nItems + 1))

/-- The same loop with the element-count limit and the `last` special-casing
removed: every entry is processed as a non-last entry.  This is the shape the
truncated prefix of an over-limit container takes (the `last` branch is never
reached there, because the loop breaks out at the limit first). -/
def fmtAll (rep : α → String) (ff : α → Nat → Nat → String) (indent : Nat)
    (compact : Bool) : List α → String → Int → Int → String
  | [], _, _, _ => ""
  | ent :: rest, delim, width, maxWidth =>
    let r := rep ent
    let w : Int := (r.length : Int) + 2
    let reset := compact ∧ width < w
    let width' := if reset then maxWidth else width
    let delim' := if reset ∧ delim ≠ "" then delimNl indent else delim
    if compact ∧ w ≤ width' then
      (delim' ++ r) ++ fmtAll rep ff indent compact rest ", " (width' - w) maxWidth
    else
      (delim' ++ ff ent indent 1) ++
        fmtAll rep ff indent compact rest (delimNl indent) width' maxWidth

/-- Shallow embedding of `_PrettyPrinter._format_items` (the iterable
version).  `widthTotal` is `self._width`, `ipl` is `self._indent_per_level`
(always `1` in the `ReprMixin` configuration, since `indent_at_name` defaults
to true).  Mirrors the source: `indent += self._indent_per_level`, the
leading `(ipl - 1) * ' '` write when `ipl > 1`, the initial budgets
`width = max_width = self._width - indent + 1`, and the empty-iterator early
return. -/
def formatItems (rep : α → String) (ff : α → Nat → Nat → String)
    (widthTotal : Int) (indent0 allowance : Nat) (nMax : Option Nat)
    (compact : Bool) (ipl : Nat) (items : List α) : String :=
  let indent := indent0 + ipl
  let pre := if 1 < ipl then String.mk (List.replicate (ipl - 1) ' ') else ""
  let w0 : Int := widthTotal - indent + 1
  pre ++
    (match items with
      | [] => ""
      | e :: rs => fmtLoop rep ff indent allowance nMax compact e rs "" w0 w0 0)

/-- The flat rendering of a key-value entry in
`_format_params_or_dict_items`: `krepr + ': ' + vrepr` for dict items,
`krepr.strip("'") + '=' + vrepr` for parameters. -/
def kvRep (frK : κ → String) (frV : ν → String) (isDict : Bool)
    (ent : κ × ν) : String :=
  (if isDict then frK ent.1 else stripQuotes (frK ent.1)) ++
    (if isDict then ": " else "=") ++ frV ent.2

/-- Shallow embedding of `_PrettyPrinter._format_params_or_dict_items`.
Identical loop to `_format_items` (see `fmtLoop`) except that the flat
representation of an entry is `kvRep` of the key and value flat reprs, there
is no `ipl > 1` leading write, and the fall-through full rendering formats
the entry wrapped in `KeyValTuple`/`KeyValTupleParam` (hidden inside `ff`,
which models `self._format(cls(ent), ...)`). -/
def formatParamsOrDictItems (frK : κ → String) (frV : ν → String)
    (ff : κ × ν → Nat → Nat → String) (widthTotal : Int)
    (indent0 allowance : Nat) (nMax : Option Nat) (compact : Bool)
    (ipl : Nat) (isDict : Bool) (entries : List (κ × ν)) : String :=
  let indent := indent0 + ipl
  let w0 : Int := widthTotal - indent + 1
  match entries with
  | [] => ""
  | e :: rs =>
    fmtLoop (kvRep frK frV isDict) ff indent allowance nMax compact e rs "" w0 w0 0

/-- Modelled from the stdlib caller `pprint.PrettyPrinter._pprint_list`
(inherited by `_PrettyPrinter`, not part of this repository's sources): it
writes `'['`, calls `self._format_items(object, stream, indent,
allowance + 1, context, level)`, and writes `']'`. -/
def pprintListModel (rep : α → String) (ff : α → Nat → Nat → String)
    (widthTotal : Int) (indent0 allowance : Nat) (nMax : Option Nat)
    (compact : Bool) (ipl : Nat) (items : List α) : String :=
  "[" ++ formatItems rep ff widthTotal indent0 (allowance + 1) nMax compact ipl items
    ++ "]"

/-- Modelled from the stdlib caller `pprint.PrettyPrinter._pprint_dict`
(inherited by `_PrettyPrinter`, not part of this repository's sources): it
writes `'{'`, sorts the items by `pprint._safe_tuple`, calls
`self._format_dict_items(items, stream, indent, allowance + 1, context,
level)` (which the subclass routes to `_format_params_or_dict_items` with
`is_dict=True`), and writes `'}'`.  The sort is applied by the caller, so
`entries` here are the already-sorted items. -/
def pprintDictModel (frK : κ → String) (frV : ν → String)
    (ff : κ × ν → Nat → Nat → String) (widthTotal : Int)
    (indent0 allowance : Nat) (nMax : Option Nat) (compact : Bool)
    (ipl : Nat) (entries : List (κ × ν)) : String :=
  lb ++ formatParamsOrDictItems frK frV ff widthTotal indent0 (allowance + 1)
    nMax compact ipl true entries ++ rb

/-- Python whitespace on the ASCII fragment, as `str.split()` and the regex
class `\s` treat it: space, tab, newline, carriage return, vertical tab,
form feed. -/
def pyBlank (c : Char) : Bool :=
  c = ' ' ∨ c = '\t' ∨ c = '\n' ∨ c = '\r' ∨ c = '\x0b' ∨ c = '\x0c'

/-- Number of non-whitespace characters: `len(''.join(s.split()))`. -/
def nbCount (cs : List Char) : Nat :=
  (cs.filter (fun c => !pyBlank c)).length

/-- Characters consumed by one greedy `\s*\S` step from the front, or `none`
when the pattern cannot match (no non-blank remains). -/
def matchSome? : List Char → Option Nat
  | [] => none
  | c :: cs => if pyBlank c then (matchSome? cs).map (· + 1) else some 1

/-- End position of `re.match(r'^(\s*\S){n}', cs)`: total characters
consumed by `n` repetitions of `\s*\S`, or `none` when the match fails. -/
def matchEnd? : Nat → List Char → Option Nat
  | 0, _ => some 0
  | n + 1, cs => (matchSome? cs).bind fun k => (matchEnd? n (cs.drop k)).map (k + ·)

/-- Characters consumed by `[^\n]*\n` from the front (greedy up to and
including the first newline), or `none` when there is no newline. -/
def matchNl? : List Char → Option Nat
  | [] => none
  | c :: cs => if c = '\n' then some 1 else (matchNl? cs).map (· + 1)

/-- Python slice `cs[a:-b]` with a non-negative `b`: empty when `b = 0`
(because `-0 == 0`), otherwise the characters from `a` up to `len - b`. -/
def pySliceNeg (cs : List Char) (a b : Nat) : List Char :=
  if b = 0 then [] else (cs.take (cs.length - b)).drop a

/-- Python slice `cs[-b:]` with a non-negative `b`: the whole list when
`b = 0` (because `-0 == 0`), otherwise the final `b` characters. -/
def pyTailSlice (cs : List Char) (b : Nat) : List Char :=
  if b = 0 then cs else cs.drop (cs.length - b)

/-- Shallow embedding of the character-budget truncation in
`ReprMixin.__repr__`, as a function of the fully rendered string `repr_`.

Count the non-blank characters; if over `N_CHAR_MAX`, compute
`lim = N_CHAR_MAX // 2`, `left_lim = re.match(r'^(\s*\S){lim}', repr_).end()`
and `right_lim` the same on the reversed string; if the slice
`repr_[left_lim:-right_lim]` contains a newline, extend the right match with
`[^\n]*\n`; finally replace the middle with `'...'` only when
`left_lim + 3 < len(repr_) - right_lim`.  A `none` result models the
`AttributeError` Python would raise on a failed `re.match` (`None.end()`);
the theorems show it cannot occur. -/
def reprTruncate (nCharMax : Nat) (s : String) : Option String :=
  let cs := s.toList
  if nbCount cs > nCharMax then
    let lim := nCharMax / 2
    (matchEnd? lim cs).bind fun leftLim =>
      (matchEnd? lim cs.reverse).bind fun rightLim0 =>
        (if '\n' ∈ pySliceNeg cs leftLim rightLim0 then
          (matchNl? (cs.reverse.drop rightLim0)).map fun k => rightLim0 + k
        else some rightLim0).map fun (rightLim : Nat) =>
          if (leftLim : Int) + 3 < (cs.length : Int) - (rightLim : Int) then
            String.mk (cs.take leftLim ++ ['.', '.', '.'] ++ pyTailSlice cs rightLim)
          else s
  else some s

/-- Direct rendering frames of `_safe_repr`: `ReprStep h a b` holds when the
rendering call described by `a = (objid, context, maxlevels, level)` invokes
the rendering of a child described by `b`.  The constructors mirror the
recursive call sites of `safeRepr` exactly: children are rendered only after
the emptiness check (dict/list/tuple), the depth-limit check and the
cycle check have all fallen through, and every child call runs with the
parent's identity pushed onto the context and the level incremented. -/
inductive ReprStep (h : Heap) :
    ObjId × List ObjId × Nat × Nat → ObjId × List ObjId × Nat × Nat → Prop
  | dict {objid ctx ml lvl} {items : List (ObjId × ObjId)} {k v c : ObjId}
      (hf : hfind h objid = some (.dict items)) (hne : items ≠ [])
      (hdepth : ¬(ml ≠ 0 ∧ ml ≤ lvl)) (hctx : objid ∉ ctx)
      (hmem : (k, v) ∈ items) (hc : c = k ∨ c = v) :
      ReprStep h (objid, ctx, ml, lvl) (c, objid :: ctx, ml, lvl + 1)
  | list {objid ctx ml lvl} {items : List ObjId} {c : ObjId}
      (hf : hfind h objid = some (.list items)) (hne : items ≠ [])
      (hdepth : ¬(ml ≠ 0 ∧ ml ≤ lvl)) (hctx : objid ∉ ctx)
      (hmem : c ∈ items) :
      ReprStep h (objid, ctx, ml, lvl) (c, objid :: ctx, ml, lvl + 1)
  | tuple {objid ctx ml lvl} {items : List ObjId} {c : ObjId}
      (hf : hfind h objid = some (.tuple items)) (hne : items ≠ [])
      (hdepth : ¬(ml ≠ 0 ∧ ml ≤ lvl)) (hctx : objid ∉ ctx)
      (hmem : c ∈ items) :
      ReprStep h (objid, ctx, ml, lvl) (c, objid :: ctx, ml, lvl + 1)
  | named {objid ctx ml lvl} {name : String} {params : List (String × ObjId)}
      {k : String} {c : ObjId}
      (hf : hfind h objid = some (.named name params))
      (hdepth : ¬(ml ≠ 0 ∧ ml ≤ lvl)) (hctx : objid ∉ ctx)
      (hmem : (k, c) ∈ params) :
      ReprStep h (objid, ctx, ml, lvl) (c, objid :: ctx, ml, lvl + 1)

/-- Python `==` between two modelled scalars: numeric equality across the
numeric tower (`True == 1`), string equality, `None == None`. -/
def pyEqSVal (a b : SVal) : Bool :=
  match numVal a, numVal b with
  | some x, some y => decide (x = y)
  | _, _ =>
    match a, b with
    | .str s, .str t => decide (s = t)
    | .none_, .none_ => true
    | _, _ => false

/-- Two heap identities hold Python-equal scalar keys (the relation a dict's
key set can never contain twice). -/
def pyEqKey (h : Heap) (x y : ObjId) : Prop :=
  x = y ∨ ∃ a b, hfind h x = some (.scalar a) ∧ hfind h y = some (.scalar b) ∧
    pyEqSVal a b = true

/-- An identity that maps to a scalar node. -/
def isScalarAt (h : Heap) (x : ObjId) : Prop :=
  ∃ a, hfind h x = some (.scalar a)

/-- Rank of a scalar's class in the effective `_safe_key` order on scalars:
cross-class comparisons that raise `TypeError` fall back to the class
strings, which order `NoneType` below the numeric classes below `str`
(`<class 'NoneType'>` < `<class 'bool'>`/`<class 'int'>` < `<class 'str'>`),
while `bool` and `int` compare numerically among themselves. -/
def svalRank : SVal → Nat
  | .none_ => 0
  | .int _ => 1
  | .bool _ => 1
  | .str _ => 2

/-- Within-rank comparison: numeric value order on the numeric tower,
code-point order on strings, no order on `None`. -/
def innerLt (a b : SVal) : Bool :=
  match numVal a, numVal b with
  | some x, some y => decide (x < y)
  | _, _ =>
    match a, b with
    | .str s, .str t => decide (s < t)
    | _, _ => false

/-- The effective `_safe_key` order between two scalars (excluding the
`None`-vs-`None` pair, where the fallback compares object identities):
lexicographic on (class rank, within-rank value). -/
def keyOrder (a b : SVal) : Bool :=
  decide (svalRank a < svalRank b) ||
    (decide (svalRank a = svalRank b) && innerLt a b)

/-! ### Helper lemmas -/

theorem seqo_map_ne_none {α β : Type} (f : α → Option β) :
    ∀ (l : List α), (∀ x ∈ l, f x ≠ none) → seqo (l.map f) ≠ none := by
  intro l
  induction l with
  | nil => intro _; simp [seqo]
  | cons a t ih =>
    intro hall
    simp only [List.map_cons, seqo]
    cases hfa : f a with
    | none => exact absurd hfa (hall a (by simp))
    | some b =>
      cases hs : seqo (t.map f) with
      | none => exact absurd hs (ih (fun x hx => hall x (by simp [hx])))
      | some rs => simp

theorem seqo_map_mem {α β : Type} (f : α → Option β) :
    ∀ (l : List α) (rs : List β), seqo (l.map f) = some rs →
      ∀ x ∈ l, ∃ r ∈ rs, f x = some r := by
  intro l
  induction l with
  | nil => simp
  | cons a t ih =>
    intro rs hs x hx
    simp only [List.map_cons, seqo] at hs
    cases hfa : f a with
    | none => rw [hfa] at hs; simp at hs
    | some b =>
      rw [hfa] at hs
      cases hst : seqo (t.map f) with
      | none => rw [hst] at hs; simp at hs
      | some rs' =>
        rw [hst] at hs
        simp only [Option.some_bind, Option.map_some'] at hs
        obtain rfl : b :: rs' = rs := Option.some.inj hs
        rcases List.mem_cons.mp hx with rfl | hxt
        · exact ⟨b, by simp, hfa⟩
        · rcases ih rs' hst x hxt with ⟨r, hr, hfr⟩
          exact ⟨r, by simp [hr], hfr⟩

theorem hfind_mem_heapIds : ∀ (h : Heap) (i : ObjId) (n : Node),
    hfind h i = some n → i ∈ heapIds h := by
  intro h
  induction h with
  | nil => intro i n hf; simp [hfind] at hf
  | cons p t ih =>
    intro i n hf
    obtain ⟨j, m⟩ := p
    simp only [hfind] at hf
    by_cases hij : i = j
    · simp [heapIds, hij]
    · rw [if_neg hij] at hf
      have hmem := ih i n hf
      simp only [heapIds, List.map_cons, List.mem_cons]
      simp only [heapIds] at hmem
      exact Or.inr hmem

theorem length_filter_ne_lt {oid : ObjId} : ∀ {L : List ObjId}, oid ∈ L →
    (L.filter (fun i => !decide (i = oid))).length < L.length := by
  intro L
  induction L with
  | nil => simp
  | cons a t ih =>
    intro hmem
    by_cases ha : a = oid
    · subst ha
      have heq : List.filter (fun i => !decide (i = a)) (a :: t) =
          List.filter (fun i => !decide (i = a)) t := by
        simp [List.filter_cons]
      rw [heq]
      exact Nat.lt_succ_of_le (List.length_filter_le _ t)
    · rcases List.mem_cons.mp hmem with h | h
      · exact absurd h.symm ha
      · have heq : List.filter (fun i => !decide (i = oid)) (a :: t) =
            a :: List.filter (fun i => !decide (i = oid)) t := by
          simp [List.filter_cons, ha]
        rw [heq, List.length_cons, List.length_cons]
        exact Nat.succ_lt_succ (ih h)

theorem measureB_lt (h : Heap) (ctx : List ObjId) (oid : ObjId)
    (hmem : oid ∈ heapIds h) (hctx : oid ∉ ctx) :
    measureB h (oid :: ctx) < measureB h ctx := by
  unfold measureB
  have h1 : ((heapIds h).dedup.filter (fun i => !decide (i ∈ oid :: ctx))) =
      ((heapIds h).dedup.filter (fun i => !decide (i ∈ ctx))).filter
        (fun i => !decide (i = oid)) := by
    rw [List.filter_filter]
    apply List.filter_congr
    intro x _
    simp [List.mem_cons, eq_comm]
  rw [h1]
  have h2 : oid ∈ (heapIds h).dedup.filter (fun i => !decide (i ∈ ctx)) := by
    simp [List.mem_filter, List.mem_dedup, hmem, hctx]
  exact length_filter_ne_lt h2

/-- One-step unfolding of `safeRepr` at positive fuel. -/
theorem safeRepr_succ_eq (h : Heap) (fuel : Nat) (oid : ObjId) (ctx : List ObjId)
    (ml lvl : Nat) :
    safeRepr h (fuel + 1) oid ctx ml lvl =
      (match hfind h oid with
      | none => some ("<missing>", false, false)
      | some (.scalar v) => some (reprSVal v, true, false)
      | some (.dict items) =>
        if items = [] then some (lb ++ rb, true, false)
        else if ml ≠ 0 ∧ ml ≤ lvl then
          some (lb ++ "..." ++ rb, false, decide (oid ∈ ctx))
        else if oid ∈ ctx then
          some (recursionMarker "dict" oid, false, true)
        else
          match seqo ((pySorted (safeTupleLt h) items).map fun kv =>
              (safeRepr h fuel kv.1 (oid :: ctx) ml (lvl + 1)).bind fun k =>
                (safeRepr h fuel kv.2 (oid :: ctx) ml (lvl + 1)).map fun v =>
                  (k.1 ++ ": " ++ v.1, k.2.1 && v.2.1, k.2.2 || v.2.2)) with
          | none => none
          | some rs =>
            some (lb ++ ", ".intercalate (rs.map (·.1)) ++ rb,
              rs.all (·.2.1), rs.any (·.2.2))
      | some (.list items) =>
        if items = [] then some ("[]", true, false)
        else if ml ≠ 0 ∧ ml ≤ lvl then
          some ("[...]", false, decide (oid ∈ ctx))
        else if oid ∈ ctx then
          some (recursionMarker "list" oid, false, true)
        else
          match seqo (items.map fun o =>
              safeRepr h fuel o (oid :: ctx) ml (lvl + 1)) with
          | none => none
          | some rs =>
            some ("[" ++ ", ".intercalate (rs.map (·.1)) ++ "]",
              rs.all (·.2.1), rs.any (·.2.2))
      | some (.tuple items) =>
        let fmt := fun (body : String) =>
          if items.length = 1 then "(" ++ body ++ ",)" else "(" ++ body ++ ")"
        if items = [] then some ("()", true, false)
        else if ml ≠ 0 ∧ ml ≤ lvl then
          some (fmt "...", false, decide (oid ∈ ctx))
        else if oid ∈ ctx then
          some (recursionMarker "tuple" oid, false, true)
        else
          match seqo (items.map fun o =>
              safeRepr h fuel o (oid :: ctx) ml (lvl + 1)) with
          | none => none
          | some rs =>
            some (fmt (", ".intercalate (rs.map (·.1))),
              rs.all (·.2.1), rs.any (·.2.2))
      | some (.named name params) =>
        if ml ≠ 0 ∧ ml ≤ lvl then
          some (lb ++ "..." ++ rb, false, decide (oid ∈ ctx))
        else if oid ∈ ctx then
          some (recursionMarker name oid, false, true)
        else
          match seqo ((pySorted paramLt params).map
              fun kv =>
                (safeRepr h fuel kv.2 (oid :: ctx) ml (lvl + 1)).map fun v =>
                  (stripQuotes (reprSVal (.str kv.1)) ++ "=" ++ v.1, v.2)) with
          | none => none
          | some rs =>
            some (name ++ "(" ++ ", ".intercalate (rs.map (·.1)) ++ ")",
              rs.all (·.2.1), rs.any (·.2.2))
      | some (.other _ r) =>
        some (r, decide (r ≠ "") && !r.startsWith "<", false)) := rfl

theorem intercalate_single (s a : String) : s.intercalate [a] = a := rfl

theorem insertSorted_perm (lt : α → α → Bool) (a : α) :
    ∀ l : List α, List.Perm (insertSorted lt a l) (a :: l) := by
  intro l
  induction l with
  | nil => simp [insertSorted]
  | cons b bs ih =>
    simp only [insertSorted]
    by_cases hlt : lt b a
    · simp only [hlt, if_true]
      exact (List.Perm.cons b ih).trans (List.Perm.swap a b bs)
    · simp [hlt]

theorem pySorted_perm (lt : α → α → Bool) :
    ∀ l : List α, List.Perm (pySorted lt l) l := by
  intro l
  induction l with
  | nil => simp [pySorted]
  | cons a t ih =>
    simp only [pySorted, List.foldr_cons]
    exact (insertSorted_perm lt a _).trans (List.Perm.cons a ih)

/-- Fuel sufficiency: with fuel strictly above the number of distinct heap
identities not yet in the context, `safeRepr` cannot run out of fuel.  This
is the formal content of termination on arbitrary (also cyclic) heaps. -/
theorem safeRepr_ne_none (h : Heap) :
    ∀ (fuel : Nat) (oid : ObjId) (ctx : List ObjId) (ml lvl : Nat),
      measureB h ctx < fuel → safeRepr h fuel oid ctx ml lvl ≠ none := by
  intro fuel
  induction fuel with
  | zero => intro oid ctx ml lvl hlt; omega
  | succ f ih =>
    intro oid ctx ml lvl hlt
    rw [safeRepr_succ_eq]
    cases hf : hfind h oid with
    | none => simp
    | some node =>
      have hoid := hfind_mem_heapIds h oid node hf
      have hchild : ∀ ml' lvl', oid ∉ ctx →
          ∀ c, safeRepr h f c (oid :: ctx) ml' lvl' ≠ none := by
        intro ml' lvl' hc c
        apply ih
        have := measureB_lt h ctx oid hoid hc
        omega
      cases node with
      | scalar v => simp
      | other tn r => simp
      | dict items =>
        by_cases he : items = []
        · simp [he]
        · by_cases hd : ml ≠ 0 ∧ ml ≤ lvl
          · simp [he, hd]
          · by_cases hc : oid ∈ ctx
            · simp [he, hd, hc]
            · have hall : ∀ kv ∈ pySorted (safeTupleLt h) items,
                  ((safeRepr h f kv.1 (oid :: ctx) ml (lvl + 1)).bind fun k =>
                    (safeRepr h f kv.2 (oid :: ctx) ml (lvl + 1)).map fun v =>
                      (k.1 ++ ": " ++ v.1, k.2.1 && v.2.1, k.2.2 || v.2.2)) ≠ none := by
                intro kv _
                cases hk : safeRepr h f kv.1 (oid :: ctx) ml (lvl + 1) with
                | none => exact absurd hk (hchild ml (lvl + 1) hc kv.1)
                | some k =>
                  cases hv : safeRepr h f kv.2 (oid :: ctx) ml (lvl + 1) with
                  | none => exact absurd hv (hchild ml (lvl + 1) hc kv.2)
                  | some v => simp
              cases hs : seqo ((pySorted (safeTupleLt h) items).map fun kv =>
                  (safeRepr h f kv.1 (oid :: ctx) ml (lvl + 1)).bind fun k =>
                    (safeRepr h f kv.2 (oid :: ctx) ml (lvl + 1)).map fun v =>
                      (k.1 ++ ": " ++ v.1, k.2.1 && v.2.1, k.2.2 || v.2.2)) with
              | none => exact absurd hs (seqo_map_ne_none _ _ hall)
              | some rs => simp [he, hd, hc, hs]
      | list items =>
        by_cases he : items = []
        · simp [he]
        · by_cases hd : ml ≠ 0 ∧ ml ≤ lvl
          · simp [he, hd]
          · by_cases hc : oid ∈ ctx
            · simp [he, hd, hc]
            · have hall : ∀ o ∈ items,
                  safeRepr h f o (oid :: ctx) ml (lvl + 1) ≠ none :=
                fun o _ => hchild ml (lvl + 1) hc o
              cases hs : seqo (items.map fun o =>
                  safeRepr h f o (oid :: ctx) ml (lvl + 1)) with
              | none => exact absurd hs (seqo_map_ne_none _ _ hall)
              | some rs => simp [he, hd, hc, hs]
      | tuple items =>
        by_cases he : items = []
        · simp [he]
        · by_cases hd : ml ≠ 0 ∧ ml ≤ lvl
          · simp [he, hd]
          · by_cases hc : oid ∈ ctx
            · simp [he, hd, hc]
            · have hall : ∀ o ∈ items,
                  safeRepr h f o (oid :: ctx) ml (lvl + 1) ≠ none :=
                fun o _ => hchild ml (lvl + 1) hc o
              cases hs : seqo (items.map fun o =>
                  safeRepr h f o (oid :: ctx) ml (lvl + 1)) with
              | none => exact absurd hs (seqo_map_ne_none _ _ hall)
              | some rs => simp [he, hd, hc, hs]
      | named name params =>
        by_cases hd : ml ≠ 0 ∧ ml ≤ lvl
        · simp [hd]
        · by_cases hc : oid ∈ ctx
          · simp [hd, hc]
          · have hall : ∀ kv ∈ pySorted paramLt params,
                ((safeRepr h f kv.2 (oid :: ctx) ml (lvl + 1)).map fun v =>
                  (stripQuotes (reprSVal (.str kv.1)) ++ "=" ++ v.1, v.2)) ≠ none := by
              intro kv _
              cases hv : safeRepr h f kv.2 (oid :: ctx) ml (lvl + 1) with
              | none => exact absurd hv (hchild ml (lvl + 1) hc kv.2)
              | some v => simp
            cases hs : seqo ((pySorted paramLt params).map
                fun kv =>
                  (safeRepr h f kv.2 (oid :: ctx) ml (lvl + 1)).map fun v =>
                    (stripQuotes (reprSVal (.str kv.1)) ++ "=" ++ v.1, v.2)) with
            | none => exact absurd hs (seqo_map_ne_none _ _ hall)
            | some rs => simp [hd, hc, hs]

/-! ### Claim theorems -/

/-- Claim C1: for every mapping that contains itself as a value under some
key, rendering via `_safe_repr` with a fresh context (and the default
unlimited depth, `maxlevels = 0`) terminates, and the component rendered at
the self-referential position is the fixed recursion marker rather than a
re-expansion; more generally a render call never loops unboundedly on any,
also cyclic, input: fuel strictly above the number of unregistered heap
identities is never exhausted. -/
theorem c1_cycle_guard (h : Heap) :
    (∀ (fuel : Nat) (oid : ObjId) (ctx : List ObjId) (ml lvl : Nat),
      measureB h ctx < fuel → safeRepr h fuel oid ctx ml lvl ≠ none) ∧
    (∀ (mid : ObjId) (items : List (ObjId × ObjId)) (kid : ObjId),
      hfind h mid = some (.dict items) → (kid, mid) ∈ items →
      ∃ (rs : List (String × Bool × Bool)) (kr : String),
        safeRepr h (measureB h [] + 1) mid [] 0 0 =
          some (lb ++ ", ".intercalate (rs.map (·.1)) ++ rb, false, true) ∧
        (kr ++ ": " ++ recursionMarker "dict" mid) ∈ rs.map (·.1)) := by
  constructor
  · exact fun fuel oid ctx ml lvl hm => safeRepr_ne_none h fuel oid ctx ml lvl hm
  · intro mid items kid hf hmem
    have hne : items ≠ [] := by intro hh; subst hh; simp at hmem
    have hmid : mid ∈ heapIds h := hfind_mem_heapIds h mid _ hf
    have hmlt : measureB h [mid] < measureB h [] :=
      measureB_lt h [] mid hmid (by simp)
    have hchild : ∀ c lvl', safeRepr h (measureB h []) c [mid] 0 lvl' ≠ none :=
      fun c lvl' => safeRepr_ne_none h _ c [mid] 0 lvl' hmlt
    have hpos : 0 < measureB h [] := by omega
    rw [safeRepr_succ_eq, hf]
    have hall : ∀ kv ∈ pySorted (safeTupleLt h) items,
        ((safeRepr h (measureB h []) kv.1 (mid :: []) 0 (0 + 1)).bind fun k =>
          (safeRepr h (measureB h []) kv.2 (mid :: []) 0 (0 + 1)).map fun v =>
            (k.1 ++ ": " ++ v.1, k.2.1 && v.2.1, k.2.2 || v.2.2)) ≠ none := by
      intro kv _
      cases hk : safeRepr h (measureB h []) kv.1 [mid] 0 (0 + 1) with
      | none => exact absurd hk (hchild kv.1 (0 + 1))
      | some k =>
        cases hv : safeRepr h (measureB h []) kv.2 [mid] 0 (0 + 1) with
        | none => exact absurd hv (hchild kv.2 (0 + 1))
        | some v => simp
    cases hs : seqo ((pySorted (safeTupleLt h) items).map fun kv =>
        (safeRepr h (measureB h []) kv.1 (mid :: []) 0 (0 + 1)).bind fun k =>
          (safeRepr h (measureB h []) kv.2 (mid :: []) 0 (0 + 1)).map fun v =>
            (k.1 ++ ": " ++ v.1, k.2.1 && v.2.1, k.2.2 || v.2.2)) with
    | none => exact absurd hs (seqo_map_ne_none _ _ hall)
    | some rs =>
      have hmem' : (kid, mid) ∈ pySorted (safeTupleLt h) items :=
        ((pySorted_perm (safeTupleLt h) items).mem_iff).mpr hmem
      obtain ⟨r, hrmem, hfr⟩ := seqo_map_mem _ _ rs hs (kid, mid) hmem'
      obtain ⟨m', hm'⟩ := Nat.exists_eq_add_of_lt hpos
      have hself : safeRepr h (measureB h []) mid [mid] 0 (0 + 1) =
          some (recursionMarker "dict" mid, false, true) := by
        rw [show measureB h [] = m' + 1 by omega, safeRepr_succ_eq, hf]
        simp [hne]
      cases hk : safeRepr h (measureB h []) kid [mid] 0 (0 + 1) with
      | none => exact absurd hk (hchild kid (0 + 1))
      | some k =>
        rw [hk, hself] at hfr
        simp only [Option.some_bind, Option.map_some'] at hfr
        have hr : r = (k.1 ++ ": " ++ recursionMarker "dict" mid,
            k.2.1 && false, k.2.2 || true) := (Option.some.inj hfr).symm
        refine ⟨rs, k.1, ?_, ?_⟩
        · have hallf : rs.all (·.2.1) = false := by
            refine List.all_eq_false.mpr ⟨r, hrmem, ?_⟩
            rw [hr]; simp
          have hanyt : rs.any (·.2.2) = true := by
            refine List.any_eq_true.mpr ⟨r, hrmem, ?_⟩
            rw [hr]; simp
          simp [hne, hs, hallf, hanyt]
        · refine List.mem_map.mpr ⟨r, hrmem, ?_⟩
          rw [hr]

theorem c1_witness :
    safeRepr [(0, Node.dict [(1, 0)]), (1, Node.scalar (.str "k"))] 3 0 [] 0 0 ≠
      none ∧
    (∃ (rs : List (String × Bool × Bool)) (kr : String),
      safeRepr [(0, Node.dict [(1, 0)]), (1, Node.scalar (.str "k"))]
          (measureB [(0, Node.dict [(1, 0)]), (1, Node.scalar (.str "k"))] [] + 1)
          0 [] 0 0 =
        some (lb ++ ", ".intercalate (rs.map (·.1)) ++ rb, false, true) ∧
      (kr ++ ": " ++ recursionMarker "dict" 0) ∈ rs.map (·.1)) :=
  ⟨(c1_cycle_guard _).1 3 0 [] 0 0 (by decide),
    (c1_cycle_guard _).2 0 [(1, 0)] 1 rfl (by decide)⟩

/-- Claim C3 counterexample: at the depth limit a single-element tuple does
not render as the claimed placeholder `(...)`: the format string chosen
before the depth check is `'(%s,)'`, so the placeholder is `(...,)`. -/
theorem c3_counterexample :
    safeRepr [(0, Node.tuple [1]), (1, Node.scalar (.int 5))] 2 0 [] 1 1 =
      some ("(...,)", false, false) ∧ "(...,)" ≠ "(...)" := by
  constructor
  · rfl
  · decide

/-- Claim C3 (amended): once `maxlevels` is configured (nonzero) and the
current level has reached it, a nonempty container renders as an
ellipsis-only placeholder without expanding its children — `{...}` for a
mapping, `[...]` for a list, `(...)` for a tuple of two or more elements,
`(...,)` for a single-element tuple, and `{...}` for a `ReprMixin`
instance. -/
theorem c3_depth_placeholders (h : Heap) (oid : ObjId) (ctx : List ObjId)
    (ml lvl fuel : Nat) (hml : ml ≠ 0) (hlvl : ml ≤ lvl) :
    (∀ items, items ≠ [] → hfind h oid = some (.dict items) →
      safeRepr h (fuel + 1) oid ctx ml lvl =
        some (lb ++ "..." ++ rb, false, decide (oid ∈ ctx))) ∧
    (∀ items, items ≠ [] → hfind h oid = some (.list items) →
      safeRepr h (fuel + 1) oid ctx ml lvl =
        some ("[...]", false, decide (oid ∈ ctx))) ∧
    (∀ items, items.length = 1 → hfind h oid = some (.tuple items) →
      safeRepr h (fuel + 1) oid ctx ml lvl =
        some ("(...,)", false, decide (oid ∈ ctx))) ∧
    (∀ items, 2 ≤ items.length → hfind h oid = some (.tuple items) →
      safeRepr h (fuel + 1) oid ctx ml lvl =
        some ("(...)", false, decide (oid ∈ ctx))) ∧
    (∀ name params, hfind h oid = some (.named name params) →
      safeRepr h (fuel + 1) oid ctx ml lvl =
        some (lb ++ "..." ++ rb, false, decide (oid ∈ ctx))) := by
  refine ⟨fun items hne hf => ?_, fun items hne hf => ?_, fun items hlen hf => ?_,
    fun items hlen hf => ?_, fun name params hf => ?_⟩ <;> rw [safeRepr_succ_eq, hf]
  · simp [hne, hml, hlvl]
  · simp [hne, hml, hlvl]
  · have hne : items ≠ [] := by intro hh; subst hh; simp at hlen
    simp [hne, hml, hlvl, hlen]
  · have hne : items ≠ [] := by intro hh; subst hh; simp at hlen
    have hlen1 : items.length ≠ 1 := by omega
    simp [hne, hml, hlvl, hlen1]
  · simp [hml, hlvl]

theorem c3_witness :
    safeRepr [(0, Node.dict [(1, 2)]), (1, Node.scalar (.str "k")),
        (2, Node.scalar (.int 3))] 1 0 [] 2 2 =
      some (lb ++ "..." ++ rb, false, decide ((0 : ObjId) ∈ ([] : List ObjId))) ∧
    safeRepr [(0, Node.tuple [1, 2]), (1, Node.scalar (.int 3)),
        (2, Node.scalar (.int 4))] 1 0 [] 2 2 =
      some ("(...)", false, decide ((0 : ObjId) ∈ ([] : List ObjId))) :=
  ⟨(c3_depth_placeholders _ 0 [] 2 2 0 (by decide) (by decide)).1
      [(1, 2)] (by decide) rfl,
    (c3_depth_placeholders _ 0 [] 2 2 0 (by decide) (by decide)).2.2.2.1
      [1, 2] (by decide) rfl⟩

/-- Claim C7: a single-element tuple renders with the distinguishing
trailing comma (`'(%s,)'`), while a list renders in square brackets with its
elements' renderings joined in original order (no sorting). -/
theorem c7_tuple_comma_list_order (h : Heap) (fuel : Nat) (ctx : List ObjId)
    (ml lvl : Nat) (hd : ¬(ml ≠ 0 ∧ ml ≤ lvl)) :
    (∀ tid xid r, hfind h tid = some (.tuple [xid]) → tid ∉ ctx →
      safeRepr h fuel xid (tid :: ctx) ml (lvl + 1) = some r →
      safeRepr h (fuel + 1) tid ctx ml lvl =
        some ("(" ++ r.1 ++ ",)", r.2.1, r.2.2)) ∧
    (∀ lid items rs, hfind h lid = some (.list items) → items ≠ [] → lid ∉ ctx →
      seqo (items.map fun o => safeRepr h fuel o (lid :: ctx) ml (lvl + 1)) = some rs →
      safeRepr h (fuel + 1) lid ctx ml lvl =
        some ("[" ++ ", ".intercalate (rs.map (·.1)) ++ "]",
          rs.all (·.2.1), rs.any (·.2.2))) := by
  constructor
  · intro tid xid r hf hctx hx
    rw [safeRepr_succ_eq, hf]
    simp [hd, hctx, seqo, hx, intercalate_single]
  · intro lid items rs hf hne hctx hs
    rw [safeRepr_succ_eq, hf]
    simp [hd, hctx, hne, hs]

theorem c7_witness :
    safeRepr [(0, Node.tuple [1]), (1, Node.scalar (.int 5))] 2 0 [] 0 0 =
      some ("(5,)", true, false) ∧
    safeRepr [(0, Node.list [1, 2]), (1, Node.scalar (.int 7)),
        (2, Node.scalar (.str "x"))] 2 0 [] 0 0 =
      some ("[7, " ++ pyq ++ "x" ++ pyq ++ "]", true, false) := by
  constructor
  · exact (c7_tuple_comma_list_order _ 1 [] 0 0 (by decide)).1 0 1
      ("5", true, false) rfl (by decide) rfl
  · exact (c7_tuple_comma_list_order _ 1 [] 0 0 (by decide)).2 0 [1, 2]
      [("7", true, false), (pyq ++ "x" ++ pyq, true, false)] rfl (by decide)
      (by decide) rfl

/-- Claim C9 counterexample: the fallback readability flag is not
`false exactly when the representation starts with '<'`: for an object whose
`repr` is the empty string, Python's `rep and not rep.startswith('<')` is
falsy although the representation does not start with `'<'`. -/
theorem c9_counterexample :
    safeRepr [(0, Node.other "Foo" "")] 1 0 [] 0 0 = some ("", false, false) ∧
      ("" : String).startsWith "<" = false := by
  constructor <;> rfl

/-- Claim C9 (amended): a value of any type other than the builtin scalars,
dict, list, tuple and `ReprMixin` subclasses renders as its default
`repr(object)` with the recursive flag false, and the readability flag is
false exactly when that representation is empty or begins with `'<'`. -/
theorem c9_fallback (h : Heap) (oid : ObjId) (ctx : List ObjId)
    (ml lvl fuel : Nat) (tn r : String)
    (hf : hfind h oid = some (.other tn r)) :
    ∃ rd : Bool, safeRepr h (fuel + 1) oid ctx ml lvl = some (r, rd, false) ∧
      (rd = false ↔ (r = "" ∨ r.startsWith "<" = true)) := by
  rw [safeRepr_succ_eq, hf]
  refine ⟨_, rfl, ?_⟩
  by_cases he : r = ""
  · simp [he]
  · by_cases hst : r.startsWith "<" <;> simp [he, hst]

theorem c9_witness :
    ∃ rd : Bool,
      safeRepr [(0, Node.other "ndarray" "<ndarray>")] 1 0 [] 0 0 =
        some ("<ndarray>", rd, false) ∧
      (rd = false ↔ (("<ndarray>" : String) = "" ∨
        ("<ndarray>" : String).startsWith "<" = true)) :=
  c9_fallback _ 0 [] 0 0 0 "ndarray" "<ndarray>" rfl

/-- Claim C10: empty containers short-circuit before the depth-limit check
and before any use of the cycle-detection context: an empty dict, list or
tuple renders as `{}`, `[]` or `()` with the readable flag true and the
recursive flag false for every context, `maxlevels` and `level`. -/
theorem c10_empty_containers (h : Heap) (oid : ObjId) (ctx : List ObjId)
    (ml lvl fuel : Nat) :
    (hfind h oid = some (.dict []) →
      safeRepr h (fuel + 1) oid ctx ml lvl = some (lb ++ rb, true, false)) ∧
    (hfind h oid = some (.list []) →
      safeRepr h (fuel + 1) oid ctx ml lvl = some ("[]", true, false)) ∧
    (hfind h oid = some (.tuple []) →
      safeRepr h (fuel + 1) oid ctx ml lvl = some ("()", true, false)) := by
  refine ⟨fun hf => ?_, fun hf => ?_, fun hf => ?_⟩ <;>
    rw [safeRepr_succ_eq, hf] <;> simp

theorem c10_witness :
    safeRepr [(0, Node.dict [])] 1 0 [0] 5 9 = some (lb ++ rb, true, false) ∧
    safeRepr [(0, Node.list [])] 1 0 [0] 5 9 = some ("[]", true, false) ∧
    safeRepr [(0, Node.tuple [])] 1 0 [0] 5 9 = some ("()", true, false) :=
  ⟨(c10_empty_containers _ 0 [0] 5 9 0).1 rfl,
    (c10_empty_containers _ 0 [0] 5 9 0).2.1 rfl,
    (c10_empty_containers _ 0 [0] 5 9 0).2.2 rfl⟩

theorem reprStep_ctx {h : Heap} {a b : ObjId × List ObjId × Nat × Nat}
    (hs : ReprStep h a b) : b.2.1 = a.1 :: a.2.1 ∧ a.1 ∉ a.2.1 := by
  cases hs <;> simp_all

theorem transGen_ctx {h : Heap} {a b : ObjId × List ObjId × Nat × Nat}
    (ht : Relation.TransGen (ReprStep h) a b) :
    a.1 ∈ b.2.1 ∧ ∀ x ∈ a.2.1, x ∈ b.2.1 := by
  induction ht with
  | single hs =>
    obtain ⟨hctx, _⟩ := reprStep_ctx hs
    rw [hctx]
    exact ⟨by simp, fun x hx => by simp [hx]⟩
  | tail _ hs ih =>
    obtain ⟨hctx, _⟩ := reprStep_ctx hs
    rw [hctx]
    exact ⟨by simp [ih.1], fun x hx => by simp [ih.2 x hx]⟩

/-- Claim C8 counterexample: re-entrance while the identity is still in the
context does not always render the recursion marker.  For
`d = {'k': {'j': d}}` rendered with `maxlevels = 2`, the re-entrant frame on
`d` is depth-limited first and renders the placeholder `{...}` (with the
recursive flag set), not the marker: the whole render is
`{'k': {'j': {...}}}`. -/
theorem c8_counterexample :
    safeRepr [(0, Node.dict [(1, 2)]), (1, Node.scalar (.str "k")),
        (2, Node.dict [(3, 0)]), (3, Node.scalar (.str "j"))] 5 0 [] 2 0 =
      some (lb ++ pyq ++ "k" ++ pyq ++ ": " ++ lb ++ pyq ++ "j" ++ pyq ++ ": " ++
        lb ++ "..." ++ rb ++ rb ++ rb, false, true) ∧
    safeRepr [(0, Node.dict [(1, 2)]), (1, Node.scalar (.str "k")),
        (2, Node.dict [(3, 0)]), (3, Node.scalar (.str "j"))] 3 0 [2, 0] 2 2 =
      some (lb ++ "..." ++ rb, false, true) ∧
    lb ++ "..." ++ rb ≠ recursionMarker "dict" 0 := by
  refine ⟨by decide, by decide, by decide⟩

/-- Claim C8 (amended): every child rendering frame runs with exactly the
parent's identity pushed onto the parent's context, and child frames are
spawned only when the parent's identity is fresh; hence an expanding frame
never shares its identity with any frame above it on the active path.
Re-entrance while the identity is still present renders the fixed recursion
marker when the depth limit has not been reached; at the depth limit the
ellipsis placeholder is rendered instead, with the recursive flag still
true. -/
theorem c8_active_frames (h : Heap) :
    (∀ a b, ReprStep h a b → b.2.1 = a.1 :: a.2.1 ∧ a.1 ∉ a.2.1) ∧
    (∀ a b c, Relation.TransGen (ReprStep h) a b → ReprStep h b c →
      a.1 ∈ b.2.1 ∧ a.1 ≠ b.1) ∧
    (∀ oid ctx ml lvl fuel, oid ∈ ctx → ¬(ml ≠ 0 ∧ ml ≤ lvl) →
      (∀ items, items ≠ [] → hfind h oid = some (.dict items) →
        safeRepr h (fuel + 1) oid ctx ml lvl =
          some (recursionMarker "dict" oid, false, true)) ∧
      (∀ items, items ≠ [] → hfind h oid = some (.list items) →
        safeRepr h (fuel + 1) oid ctx ml lvl =
          some (recursionMarker "list" oid, false, true)) ∧
      (∀ items, items ≠ [] → hfind h oid = some (.tuple items) →
        safeRepr h (fuel + 1) oid ctx ml lvl =
          some (recursionMarker "tuple" oid, false, true)) ∧
      (∀ name params, hfind h oid = some (.named name params) →
        safeRepr h (fuel + 1) oid ctx ml lvl =
          some (recursionMarker name oid, false, true))) ∧
    (∀ oid ctx ml lvl fuel items, oid ∈ ctx → ml ≠ 0 → ml ≤ lvl →
      items ≠ [] → hfind h oid = some (.dict items) →
      safeRepr h (fuel + 1) oid ctx ml lvl =
        some (lb ++ "..." ++ rb, false, true)) := by
  refine ⟨fun a b hs => reprStep_ctx hs, ?_, ?_, ?_⟩
  · intro a b c ht hs
    have hmem := (transGen_ctx ht).1
    obtain ⟨_, hnotin⟩ := reprStep_ctx hs
    exact ⟨hmem, fun heq => hnotin (heq ▸ hmem)⟩
  · intro oid ctx ml lvl fuel hctx hd
    refine ⟨fun items hne hf => ?_, fun items hne hf => ?_,
      fun items hne hf => ?_, fun name params hf => ?_⟩ <;>
      rw [safeRepr_succ_eq, hf]
    · simp [hne, hd, hctx]
    · simp [hne, hd, hctx]
    · simp [hne, hd, hctx]
    · simp [hd, hctx]
  · intro oid ctx ml lvl fuel items hctx hml hlvl hne hf
    rw [safeRepr_succ_eq, hf]
    simp [hne, hml, hlvl, hctx]

theorem c8_witness :
    ((0 : ObjId) ∈ [(0 : ObjId)] ∧ (0 : ObjId) ≠ 2) ∧
    safeRepr [(0, Node.dict [(1, 0)]), (1, Node.scalar (.str "k"))] 1 0 [0] 0 1 =
      some (recursionMarker "dict" 0, false, true) ∧
    safeRepr [(0, Node.dict [(1, 0)]), (1, Node.scalar (.str "k"))] 1 0 [0] 1 1 =
      some (lb ++ "..." ++ rb, false, true) := by
  refine ⟨?_, ?_, ?_⟩
  · exact (c8_active_frames [(0, Node.list [2]), (2, Node.list [3]),
        (3, Node.scalar (.int 1))]).2.1 (0, [], 0, 0) (2, [0], 0, 1) (3, [2, 0], 0, 2)
      (Relation.TransGen.single
        (@ReprStep.list [(0, Node.list [2]), (2, Node.list [3]),
          (3, Node.scalar (.int 1))] 0 [] 0 0 [2] 2
          (by decide) (by decide) (by decide) (by decide) (by decide)))
      (@ReprStep.list [(0, Node.list [2]), (2, Node.list [3]),
        (3, Node.scalar (.int 1))] 2 [0] 0 1 [3] 3
        (by decide) (by decide) (by decide) (by decide) (by decide))
  · exact ((c8_active_frames _).2.2.1 0 [0] 0 1 0 (by decide) (by decide)).1
      [(1, 0)] (by decide) rfl
  · exact (c8_active_frames _).2.2.2 0 [0] 1 1 0 [(1, 0)] (by decide) (by decide)
      (by decide) (by decide) rfl
theorem keyOrder_asym (a b : SVal) : keyOrder a b = true → keyOrder b a = false := by
  rcases a with na | ba | sa | _ <;> (try cases ba) <;>
    rcases b with nb | bb | sb | _ <;> (try cases bb) <;>
    simp [keyOrder, svalRank, innerLt, numVal] <;>
    first
      | omega
      | (intro hh; exact le_of_lt hh)

theorem keyOrder_negtrans (a b c : SVal) :
    keyOrder b a = false → keyOrder c b = false → keyOrder c a = false := by
  rcases a with na | ba | sa | _ <;> (try cases ba) <;>
    rcases b with nb | bb | sb | _ <;> (try cases bb) <;>
    rcases c with nc | bc | sc | _ <;> (try cases bc) <;>
    simp [keyOrder, svalRank, innerLt, numVal] <;>
    first
      | omega
      | (intro h1 h2; exact le_trans h1 h2)

theorem keyOrder_tie (a b : SVal) :
    keyOrder a b = false → keyOrder b a = false → pyEqSVal a b = true := by
  rcases a with na | ba | sa | _ <;> (try cases ba) <;>
    rcases b with nb | bb | sb | _ <;> (try cases bb) <;>
    simp [keyOrder, svalRank, innerLt, numVal, pyEqSVal] <;>
    first
      | omega
      | (intro h1 h2; exact String.ext (le_antisymm h2 h1))

theorem insertSorted_pairwise (lt : α → α → Bool) (L : List α)
    (hasym : ∀ a ∈ L, ∀ b ∈ L, lt a b = true → lt b a = false)
    (hneg : ∀ a ∈ L, ∀ b ∈ L, ∀ c ∈ L,
      lt b a = false → lt c b = false → lt c a = false)
    (a : α) (ha : a ∈ L) :
    ∀ l : List α, (∀ x ∈ l, x ∈ L) →
      l.Pairwise (fun x y => lt y x = false) →
      (insertSorted lt a l).Pairwise (fun x y => lt y x = false) := by
  intro l
  induction l with
  | nil => intro _ _; simp [insertSorted]
  | cons b bs ih =>
    intro hsub hp
    obtain ⟨hb, hbs⟩ := List.pairwise_cons.mp hp
    simp only [insertSorted]
    by_cases hlt : lt b a = true
    · simp only [hlt, if_true]
      refine List.pairwise_cons.mpr
        ⟨?_, ih (fun x hx => hsub x (by simp [hx])) hbs⟩
      intro z hz
      have hz' : z = a ∨ z ∈ bs := by
        have := (insertSorted_perm lt a bs).mem_iff.mp hz
        simpa using this
      rcases hz' with rfl | hz'
      · exact hasym b (hsub b (by simp)) z ha hlt
      · exact hb z hz'
    · have hlt' : lt b a = false := by
        cases hq : lt b a
        · rfl
        · exact absurd hq hlt
      simp only [hlt', Bool.false_eq_true, if_false]
      refine List.pairwise_cons.mpr ⟨?_, hp⟩
      intro z hz
      rcases List.mem_cons.mp hz with rfl | hz'
      · exact hlt'
      · exact hneg a ha b (hsub b (by simp)) z (hsub z (by simp [hz'])) hlt' (hb z hz')

theorem pySorted_pairwise (lt : α → α → Bool) (L : List α)
    (hasym : ∀ a ∈ L, ∀ b ∈ L, lt a b = true → lt b a = false)
    (hneg : ∀ a ∈ L, ∀ b ∈ L, ∀ c ∈ L,
      lt b a = false → lt c b = false → lt c a = false) :
    ∀ l : List α, (∀ x ∈ l, x ∈ L) →
      (pySorted lt l).Pairwise (fun x y => lt y x = false) := by
  intro l
  induction l with
  | nil => intro _; simp [pySorted]
  | cons a t ih =>
    intro hsub
    have hstep : pySorted lt (a :: t) = insertSorted lt a (pySorted lt t) := rfl
    rw [hstep]
    refine insertSorted_pairwise lt L hasym hneg a (hsub a (by simp))
      (pySorted lt t) ?_ (ih (fun x hx => hsub x (by simp [hx])))
    intro x hx
    exact hsub x (by simp [(pySorted_perm lt t).mem_iff.mp hx])

theorem eq_of_perm_of_pairwise (R : α → α → Prop) :
    ∀ (l1 l2 : List α), List.Perm l1 l2 → l1.Pairwise R → l2.Pairwise R →
      (∀ a ∈ l1, ∀ b ∈ l1, R a b → R b a → a = b) → l1 = l2 := by
  intro l1
  induction l1 with
  | nil => intro l2 hp _ _ _; exact hp.nil_eq
  | cons a t1 ih =>
    intro l2 hp hp1 hp2 hanti
    cases l2 with
    | nil => exact absurd hp.symm.nil_eq (by simp)
    | cons b t2 =>
      have hab : a = b := by
        have hainl2 : a ∈ b :: t2 := hp.mem_iff.mp (by simp)
        rcases List.mem_cons.mp hainl2 with h1 | h1
        · exact h1
        have hbinl1 : b ∈ a :: t1 := hp.mem_iff.mpr (by simp)
        rcases List.mem_cons.mp hbinl1 with h2 | h2
        · exact h2.symm
        have hRab : R a b := (List.pairwise_cons.mp hp1).1 b h2
        have hRba : R b a := (List.pairwise_cons.mp hp2).1 a h1
        exact hanti a (by simp) b (by simp [h2]) hRab hRba
      subst hab
      have ht : List.Perm t1 t2 := hp.cons_inv
      rw [ih t2 ht (List.pairwise_cons.mp hp1).2 (List.pairwise_cons.mp hp2).2
        (fun x hx y hy => hanti x (by simp [hx]) y (by simp [hy]))]

theorem pySorted_eq_of_perm (lt : α → α → Bool) (l1 l2 : List α)
    (hperm : List.Perm l1 l2)
    (hasym : ∀ a ∈ l1, ∀ b ∈ l1, lt a b = true → lt b a = false)
    (hneg : ∀ a ∈ l1, ∀ b ∈ l1, ∀ c ∈ l1,
      lt b a = false → lt c b = false → lt c a = false)
    (hanti : ∀ a ∈ l1, ∀ b ∈ l1, lt b a = false → lt a b = false → a = b) :
    pySorted lt l1 = pySorted lt l2 := by
  refine eq_of_perm_of_pairwise (fun x y => lt y x = false)
    (pySorted lt l1) (pySorted lt l2)
    (((pySorted_perm lt l1).trans hperm).trans (pySorted_perm lt l2).symm)
    (pySorted_pairwise lt l1 hasym hneg l1 (fun x hx => hx))
    (pySorted_pairwise lt l1 hasym hneg l2 (fun x hx => hperm.mem_iff.mpr hx))
    ?_
  intro x hx y hy hxy hyx
  exact hanti x ((pySorted_perm lt l1).mem_iff.mp hx)
    y ((pySorted_perm lt l1).mem_iff.mp hy) hxy hyx

theorem safeKeyLt_irrefl (h : Heap) (x : ObjId) : safeKeyLt h x x = false := by
  unfold safeKeyLt
  cases hx : hfind h x with
  | none => simp
  | some node =>
    cases node with
    | scalar a =>
      rcases a with na | ba | sa | _ <;> simp [svalCmp, numVal]
    | dict items => simp
    | list items => simp
    | tuple items => simp
    | named n p => simp
    | other tn r => simp

theorem pyEqSVal_symm (a b : SVal) (hab : pyEqSVal a b = true) :
    pyEqSVal b a = true := by
  rcases a with na | ba | sa | _ <;> rcases b with nb | bb | sb | _ <;>
    simp_all [pyEqSVal, numVal]

theorem safeKeyLt_eq_keyOrder (h : Heap) (x y : ObjId) (a b : SVal)
    (hx : hfind h x = some (.scalar a)) (hy : hfind h y = some (.scalar b))
    (hnn : ¬(a = SVal.none_ ∧ b = SVal.none_)) :
    safeKeyLt h x y = keyOrder a b := by
  unfold safeKeyLt pyTypeStr
  rw [hx, hy]
  rcases a with na | ba | sa | _ <;> rcases b with nb | bb | sb | _ <;>
    simp_all [svalCmp, numVal, keyOrder, svalRank, innerLt] <;>
    first
      | exact Or.inl (by decide)
      | exact ⟨by decide, fun hEq => absurd hEq (by decide)⟩

theorem entries_hnn (h : Heap) {p q : ObjId × ObjId} {a b : SVal}
    (hxa : hfind h p.1 = some (.scalar a)) (hyb : hfind h q.1 = some (.scalar b))
    (hnot : ¬ pyEqKey h p.1 q.1) : ¬(a = SVal.none_ ∧ b = SVal.none_) := by
  rintro ⟨rfl, rfl⟩
  exact hnot (Or.inr ⟨_, _, hxa, hyb, rfl⟩)

theorem entries_asym (h : Heap) (items : List (ObjId × ObjId))
    (hsc : ∀ kv ∈ items, isScalarAt h kv.1)
    (hpair : ∀ p ∈ items, ∀ q ∈ items, p ≠ q → ¬ pyEqKey h p.1 q.1) :
    ∀ p ∈ items, ∀ q ∈ items, safeTupleLt h p q = true →
      safeTupleLt h q p = false := by
  intro p hp q hq hlt
  by_cases hpq : p = q
  · subst hpq
    rw [safeTupleLt, safeKeyLt_irrefl] at hlt
    exact absurd hlt (by simp)
  · by_cases hk : p.1 = q.1
    · exact absurd (Or.inl hk) (hpair p hp q hq hpq)
    · obtain ⟨a, hxa⟩ := hsc p hp
      obtain ⟨b, hyb⟩ := hsc q hq
      have hnot := hpair p hp q hq hpq
      have hnn := entries_hnn h hxa hyb hnot
      have hnn' : ¬(b = SVal.none_ ∧ a = SVal.none_) := fun hh => hnn ⟨hh.2, hh.1⟩
      rw [safeTupleLt, safeKeyLt_eq_keyOrder h p.1 q.1 a b hxa hyb hnn] at hlt
      rw [safeTupleLt, safeKeyLt_eq_keyOrder h q.1 p.1 b a hyb hxa hnn']
      exact keyOrder_asym a b hlt

theorem entries_negtrans (h : Heap) (items : List (ObjId × ObjId))
    (hsc : ∀ kv ∈ items, isScalarAt h kv.1)
    (hpair : ∀ p ∈ items, ∀ q ∈ items, p ≠ q → ¬ pyEqKey h p.1 q.1) :
    ∀ p ∈ items, ∀ q ∈ items, ∀ r ∈ items,
      safeTupleLt h q p = false → safeTupleLt h r q = false →
      safeTupleLt h r p = false := by
  intro p hp q hq r hr h1 h2
  by_cases hrp : r.1 = p.1
  · rw [safeTupleLt, hrp, safeKeyLt_irrefl]
  · by_cases hqp : q.1 = p.1
    · rw [safeTupleLt] at h2 ⊢
      rw [← hqp]
      exact h2
    · by_cases hrq : r.1 = q.1
      · rw [safeTupleLt] at h1 ⊢
        rw [hrq]
        exact h1
      · have hpq : p ≠ q := fun hh => hqp (by rw [hh])
        have hqr : q ≠ r := fun hh => hrq (by rw [hh])
        have hpr : p ≠ r := fun hh => hrp (by rw [hh])
        obtain ⟨a, hxa⟩ := hsc p hp
        obtain ⟨b, hyb⟩ := hsc q hq
        obtain ⟨c, hzc⟩ := hsc r hr
        have hnnba := entries_hnn h hyb hxa (hpair q hq p hp hpq.symm)
        have hnncb := entries_hnn h hzc hyb (hpair r hr q hq hqr.symm)
        have hnnca := entries_hnn h hzc hxa (hpair r hr p hp hpr.symm)
        rw [safeTupleLt, safeKeyLt_eq_keyOrder h q.1 p.1 b a hyb hxa hnnba] at h1
        rw [safeTupleLt, safeKeyLt_eq_keyOrder h r.1 q.1 c b hzc hyb hnncb] at h2
        rw [safeTupleLt, safeKeyLt_eq_keyOrder h r.1 p.1 c a hzc hxa hnnca]
        exact keyOrder_negtrans a b c h1 h2

theorem entries_anti (h : Heap) (items : List (ObjId × ObjId))
    (hsc : ∀ kv ∈ items, isScalarAt h kv.1)
    (hpair : ∀ p ∈ items, ∀ q ∈ items, p ≠ q → ¬ pyEqKey h p.1 q.1) :
    ∀ p ∈ items, ∀ q ∈ items, safeTupleLt h q p = false →
      safeTupleLt h p q = false → p = q := by
  intro p hp q hq h1 h2
  by_contra hpq
  by_cases hk : p.1 = q.1
  · exact (hpair p hp q hq hpq) (Or.inl hk)
  · obtain ⟨a, hxa⟩ := hsc p hp
    obtain ⟨b, hyb⟩ := hsc q hq
    have hnot := hpair p hp q hq hpq
    have hnn := entries_hnn h hxa hyb hnot
    have hnn' : ¬(b = SVal.none_ ∧ a = SVal.none_) := fun hh => hnn ⟨hh.2, hh.1⟩
    rw [safeTupleLt, safeKeyLt_eq_keyOrder h q.1 p.1 b a hyb hxa hnn'] at h1
    rw [safeTupleLt, safeKeyLt_eq_keyOrder h p.1 q.1 a b hxa hyb hnn] at h2
    exact hnot (Or.inr ⟨a, b, hxa, hyb, keyOrder_tie a b h2 h1⟩)

theorem safeKeyLt_heap_congr (h1 h2 : Heap) (oid : ObjId)
    {items1 items2 : List (ObjId × ObjId)}
    (hagree : ∀ i, i ≠ oid → hfind h1 i = hfind h2 i)
    (hf1 : hfind h1 oid = some (.dict items1))
    (hf2 : hfind h2 oid = some (.dict items2)) :
    safeKeyLt h1 = safeKeyLt h2 := by
  have hts : ∀ i, pyTypeStr h1 i = pyTypeStr h2 i := by
    intro i
    by_cases hio : i = oid
    · subst hio
      unfold pyTypeStr
      rw [hf1, hf2]
    · unfold pyTypeStr
      rw [hagree i hio]
  funext x y
  unfold safeKeyLt
  rw [hts x, hts y]
  by_cases hxo : x = oid
  · subst hxo
    rw [hf1, hf2]
  · rw [hagree x hxo]
    by_cases hyo : y = oid
    · subst hyo
      rw [hf1, hf2]
      cases hfind h2 x with
      | none => rfl
      | some n => cases n <;> rfl
    · rw [hagree y hyo]

theorem pyEqKey_symm (h : Heap) {x y : ObjId} (hxy : pyEqKey h x y) :
    pyEqKey h y x := by
  rcases hxy with rfl | ⟨a, b, hx, hy, hab⟩
  · exact Or.inl rfl
  · exact Or.inr ⟨b, a, hy, hx, pyEqSVal_symm a b hab⟩

/-- Claim C5 (amended): dict entries are sorted by `pprint._safe_key`
comparison on the keys themselves (numeric order on numbers, code-point
order on strings, class-string fallback for non-comparable keys), not on the
keys' rendered forms; consequently, for two heaps that agree everywhere
except that one dict node holds the same entries in a different iteration
order, rendering is identical everywhere — provided the dict's keys are
scalars and pairwise not Python-equal, as the keys of a real dict always
are. -/
theorem c5_order_invariance (h1 h2 : Heap) (oid : ObjId)
    (items1 items2 : List (ObjId × ObjId))
    (hagree : ∀ i, i ≠ oid → hfind h1 i = hfind h2 i)
    (hf1 : hfind h1 oid = some (.dict items1))
    (hf2 : hfind h2 oid = some (.dict items2))
    (hperm : List.Perm items1 items2)
    (hsc : ∀ kv ∈ items1, isScalarAt h1 kv.1)
    (hdist : (items1.map Prod.fst).Pairwise (fun x y => ¬ pyEqKey h1 x y)) :
    ∀ (fuel : Nat) (i : ObjId) (ctx : List ObjId) (ml lvl : Nat),
      safeRepr h1 fuel i ctx ml lvl = safeRepr h2 fuel i ctx ml lvl := by
  have hkeyLt : safeKeyLt h1 = safeKeyLt h2 :=
    safeKeyLt_heap_congr h1 h2 oid hagree hf1 hf2
  have htup : safeTupleLt h1 = safeTupleLt h2 := by
    funext p q
    rw [safeTupleLt, safeTupleLt, hkeyLt]
  have hpairP : items1.Pairwise (fun p q => ¬ pyEqKey h1 p.1 q.1) :=
    List.pairwise_map.mp hdist
  have hsymR : Symmetric (fun p q : ObjId × ObjId => ¬ pyEqKey h1 p.1 q.1) :=
    fun p q hnpq hq => hnpq (pyEqKey_symm h1 hq)
  have hpair : ∀ p ∈ items1, ∀ q ∈ items1, p ≠ q → ¬ pyEqKey h1 p.1 q.1 :=
    fun p hp q hq hne => hpairP.forall hsymR hp hq hne
  have hsorted : pySorted (safeTupleLt h1) items1 =
      pySorted (safeTupleLt h1) items2 :=
    pySorted_eq_of_perm _ items1 items2 hperm
      (entries_asym h1 items1 hsc hpair)
      (entries_negtrans h1 items1 hsc hpair)
      (entries_anti h1 items1 hsc hpair)
  intro fuel
  induction fuel with
  | zero => intro i ctx ml lvl; rfl
  | succ f ih =>
    intro i ctx ml lvl
    rw [safeRepr_succ_eq h1, safeRepr_succ_eq h2]
    by_cases hio : i = oid
    · subst hio
      simp only [hf1, hf2]
      by_cases he1 : items1 = []
      · have he2 : items2 = [] := by
          subst he1
          exact hperm.nil_eq.symm
        simp [he1, he2]
      · have he2 : items2 ≠ [] := by
          intro hh
          rw [hh] at hperm
          exact he1 ((hperm.symm.nil_eq).symm)
        rw [if_neg he1, if_neg he2]
        by_cases hd : ml ≠ 0 ∧ ml ≤ lvl
        · rw [if_pos hd, if_pos hd]
        · rw [if_neg hd, if_neg hd]
          by_cases hc : i ∈ ctx
          · rw [if_pos hc, if_pos hc]
          · rw [if_neg hc, if_neg hc]
            have hfun : (fun kv : ObjId × ObjId =>
                (safeRepr h1 f kv.1 (i :: ctx) ml (lvl + 1)).bind fun k =>
                  (safeRepr h1 f kv.2 (i :: ctx) ml (lvl + 1)).map fun v =>
                    (k.1 ++ ": " ++ v.1, k.2.1 && v.2.1, k.2.2 || v.2.2)) =
                (fun kv : ObjId × ObjId =>
                (safeRepr h2 f kv.1 (i :: ctx) ml (lvl + 1)).bind fun k =>
                  (safeRepr h2 f kv.2 (i :: ctx) ml (lvl + 1)).map fun v =>
                    (k.1 ++ ": " ++ v.1, k.2.1 && v.2.1, k.2.2 || v.2.2)) := by
              funext kv
              rw [ih, ih]
            rw [hsorted, htup, hfun]
    · rw [hagree i hio]
      cases hn : hfind h2 i with
      | none => rfl
      | some node =>
        cases node with
        | scalar v => rfl
        | other tn r => rfl
        | dict items => simp only [ih, htup]
        | list items => simp only [ih]
        | tuple items => simp only [ih]
        | named nm params => simp only [ih]

/-- Claim C5 counterexample: the key ordering is not lexicographic on the
keys' rendered forms: `{2: 'a', 10: 'b'}` sorts `2` before `10` although the
rendered form `"10"` precedes `"2"` lexicographically. -/
theorem c5_counterexample :
    safeRepr [(0, Node.dict [(1, 3), (2, 4)]), (1, Node.scalar (.int 2)),
        (2, Node.scalar (.int 10)), (3, Node.scalar (.str "a")),
        (4, Node.scalar (.str "b"))] 3 0 [] 0 0 =
      some (lb ++ "2: " ++ pyq ++ "a" ++ pyq ++ ", 10: " ++ pyq ++ "b" ++ pyq ++ rb,
        true, false) ∧
    (reprSVal (.int 10)).data < (reprSVal (.int 2)).data := by
  constructor
  · rfl
  · decide

theorem c5_witness :
    safeRepr [(0, Node.dict [(1, 3), (2, 4)]), (1, Node.scalar (.int 2)),
        (2, Node.scalar (.int 10)), (3, Node.scalar (.str "a")),
        (4, Node.scalar (.str "b"))] 3 0 [] 0 0 =
    safeRepr [(0, Node.dict [(2, 4), (1, 3)]), (1, Node.scalar (.int 2)),
        (2, Node.scalar (.int 10)), (3, Node.scalar (.str "a")),
        (4, Node.scalar (.str "b"))] 3 0 [] 0 0 := by
  refine c5_order_invariance
    [(0, Node.dict [(1, 3), (2, 4)]), (1, Node.scalar (.int 2)),
      (2, Node.scalar (.int 10)), (3, Node.scalar (.str "a")),
      (4, Node.scalar (.str "b"))]
    [(0, Node.dict [(2, 4), (1, 3)]), (1, Node.scalar (.int 2)),
      (2, Node.scalar (.int 10)), (3, Node.scalar (.str "a")),
      (4, Node.scalar (.str "b"))]
    0 [(1, 3), (2, 4)] [(2, 4), (1, 3)] ?_ rfl rfl (by decide)
    ?_ ?_ 3 0 [] 0 0
  · intro i hi
    simp [hfind, hi]
  · intro kv hkv
    simp only [List.mem_cons, List.mem_singleton] at hkv
    rcases hkv with rfl | rfl | hkv
    · exact ⟨SVal.int 2, rfl⟩
    · exact ⟨SVal.int 10, rfl⟩
    · simp at hkv
  · refine List.pairwise_cons.mpr ⟨?_, by simp⟩
    intro y hy
    simp only [List.map_cons, List.map_nil, List.mem_singleton] at hy
    subst hy
    rintro (h | ⟨a, b, ha, hb, heq⟩)
    · exact absurd h (by decide)
    · have ha' : a = SVal.int 2 := by
        have : some (Node.scalar a) = some (Node.scalar (SVal.int 2)) := by
          rw [← ha]; rfl
        injection this with h1
        injection h1
      have hb' : b = SVal.int 10 := by
        have : some (Node.scalar b) = some (Node.scalar (SVal.int 10)) := by
          rw [← hb]; rfl
        injection this with h1
        injection h1
      subst ha'
      subst hb'
      simp [pyEqSVal, numVal] at heq
/-- One-step unfolding of the layout loop. -/
theorem fmtLoop_eq {α : Type} (rep : α → String) (ff : α → Nat → Nat → String)
    (indent allowance : Nat) (nMax : Option Nat) (compact : Bool)
    (ent : α) (rest : List α) (delim : String) (width0 maxWidth0 : Int)
    (nItems : Nat) :
    fmtLoop rep ff indent allowance nMax compact ent rest delim width0 maxWidth0 nItems =
      (if nMax = some nItems then ", ..."
      else
        let last := rest.isEmpty
        let width := if last then width0 - allowance else width0
        let maxWidth := if last then maxWidth0 - allowance else maxWidth0
        let r := rep ent
        let w : Int := (r.length : Int) + 2
        let reset := compact ∧ width < w
        let width' := if reset then maxWidth else width
        let delim' := if reset ∧ delim ≠ "" then delimNl indent else delim
        if compact ∧ w ≤ width' then
          (delim' ++ r) ++
            (match rest with
              | [] => ""
              | e :: rs =>
                fmtLoop rep ff indent allowance nMax compact e rs ", "
                  (width' - w) maxWidth (nItems + 1))
        else
          (delim' ++ ff ent indent (if last then allowance else 1)) ++
            (match rest with
              | [] => ""
              | e :: rs =>
                fmtLoop rep ff indent allowance nMax compact e rs
                  (delimNl indent) width' maxWidth (nItems + 1))) := by
  cases rest <;> rfl

/-- Over the element limit the loop runs each of the next `k` entries as a
non-last entry and then breaks with `', ...'`. -/
theorem fmtLoop_over_limit {α : Type} (rep : α → String)
    (ff : α → Nat → Nat → String) (indent allowance : Nat) (compact : Bool) :
    ∀ (k : Nat) (ent : α) (rest : List α) (delim : String)
      (width maxW : Int) (nItems : Nat), k ≤ rest.length →
      fmtLoop rep ff indent allowance (some (nItems + k)) compact
          ent rest delim width maxW nItems =
        fmtAll rep ff indent compact ((ent :: rest).take k) delim width maxW
          ++ ", ..." := by
  intro k
  induction k with
  | zero =>
    intro ent rest delim width maxW nItems _
    rw [fmtLoop_eq]
    simp [fmtAll]
  | succ k ih =>
    intro ent rest delim width maxW nItems hlen
    cases rest with
    | nil => simp at hlen
    | cons e rs =>
      have hk : k ≤ rs.length := by
        simp only [List.length_cons] at hlen
        omega
      rw [fmtLoop_eq]
      have hguard : ¬ (some (nItems + (k + 1)) = some nItems) := by
        intro hh
        injection hh with hh
        omega
      rw [if_neg hguard]
      rw [show nItems + (k + 1) = (nItems + 1) + k from by omega]
      simp only [List.isEmpty_cons, Bool.false_eq_true, if_false,
        List.take_succ_cons, fmtAll]
      split <;> split <;>
        (rw [ih _ _ _ _ _ _ hk]; simp [String.append_assoc])

/-- At or under the element limit the loop never reaches the break: it
behaves as with no limit configured. -/
theorem fmtLoop_under_limit {α : Type} (rep : α → String)
    (ff : α → Nat → Nat → String) (indent allowance : Nat) (compact : Bool)
    (m : Nat) :
    ∀ (rest : List α) (ent : α) (delim : String)
      (width maxW : Int) (nItems : Nat), nItems + 1 + rest.length ≤ m →
      fmtLoop rep ff indent allowance (some m) compact
          ent rest delim width maxW nItems =
        fmtLoop rep ff indent allowance none compact
          ent rest delim width maxW nItems := by
  intro rest
  induction rest with
  | nil =>
    intro ent delim width maxW nItems hle
    rw [fmtLoop_eq, fmtLoop_eq]
    have hguard : ¬ (some m = some nItems) := by
      intro hh
      injection hh with hh
      omega
    rw [if_neg hguard]
    simp
  | cons e rs ih =>
    intro ent delim width maxW nItems hle
    have hguard : ¬ (some m = some nItems) := by
      intro hh
      injection hh with hh
      simp only [List.length_cons] at hle
      omega
    have hle2 : (nItems + 1) + 1 + rs.length ≤ m := by
      simp only [List.length_cons] at hle
      omega
    have ih2 : ∀ (d : String) (w mw : Int),
        fmtLoop rep ff indent allowance (some m) compact e rs d w mw (nItems + 1) =
        fmtLoop rep ff indent allowance none compact e rs d w mw (nItems + 1) :=
      fun d w mw => ih e d w mw (nItems + 1) hle2
    have hg2 : ¬ ((none : Option Nat) = some nItems) := by simp
    rw [fmtLoop_eq, fmtLoop_eq, if_neg hguard, if_neg hg2]
    simp only [ih2]

theorem formatItems_cons {α : Type} (rep : α → String)
    (ff : α → Nat → Nat → String) (W : Int) (indent0 allowance : Nat)
    (nMax : Option Nat) (compact : Bool) (ipl : Nat) (e : α) (rs : List α) :
    formatItems rep ff W indent0 allowance nMax compact ipl (e :: rs) =
      (if 1 < ipl then String.mk (List.replicate (ipl - 1) ' ') else "") ++
        fmtLoop rep ff (indent0 + ipl) allowance nMax compact e rs ""
          (W - ((indent0 + ipl : Nat) : Int) + 1)
          (W - ((indent0 + ipl : Nat) : Int) + 1) 0 := rfl

theorem formatKV_cons {κ ν : Type} (frK : κ → String) (frV : ν → String)
    (ffkv : κ × ν → Nat → Nat → String) (W : Int) (indent0 allowance : Nat)
    (nMax : Option Nat) (compact : Bool) (ipl : Nat) (isDict : Bool)
    (e : κ × ν) (rs : List (κ × ν)) :
    formatParamsOrDictItems frK frV ffkv W indent0 allowance nMax compact ipl
        isDict (e :: rs) =
      fmtLoop (kvRep frK frV isDict) ffkv (indent0 + ipl) allowance nMax compact
        e rs "" (W - ((indent0 + ipl : Nat) : Int) + 1)
        (W - ((indent0 + ipl : Nat) : Int) + 1) 0 := rfl

/-- Claim C4: a container holding more entries than
`n_max_elements_to_show` emits exactly that many entries (each rendered as a
non-last entry, since the loop breaks before the iterator is exhausted)
followed by the literal `', ...'`, and the caller then writes the correct
closing punctuation (a square bracket for a list, a curly brace for a
dict); a container
with at most that many entries renders exactly as with no limit configured,
so no ellipsis appears.  Stated for `_format_items` (with its stdlib callers)
and for `_format_params_or_dict_items` (both parameter and dict-item
modes). -/
theorem c4_element_count {α κ ν : Type} (rep : α → String) (ff : α → Nat → Nat → String)
    (frK : κ → String) (frV : ν → String) (ffkv : κ × ν → Nat → Nat → String)
    (W : Int) (indent0 allowance m : Nat) (compact : Bool) (ipl : Nat)
    (isDict : Bool) :
    (∀ items : List α, m < items.length →
      pprintListModel rep ff W indent0 allowance (some m) compact ipl items =
        "[" ++ ((if 1 < ipl then String.mk (List.replicate (ipl - 1) ' ') else "") ++
          (fmtAll rep ff (indent0 + ipl) compact (items.take m) ""
            (W - ((indent0 + ipl : Nat) : Int) + 1)
            (W - ((indent0 + ipl : Nat) : Int) + 1) ++ ", ...")) ++ "]") ∧
    (∀ items : List α, items.length ≤ m →
      formatItems rep ff W indent0 allowance (some m) compact ipl items =
        formatItems rep ff W indent0 allowance none compact ipl items) ∧
    (∀ entries : List (κ × ν), m < entries.length →
      formatParamsOrDictItems frK frV ffkv W indent0 allowance (some m) compact
          ipl isDict entries =
        fmtAll (kvRep frK frV isDict) ffkv (indent0 + ipl) compact
          (entries.take m) "" (W - ((indent0 + ipl : Nat) : Int) + 1)
          (W - ((indent0 + ipl : Nat) : Int) + 1) ++ ", ...") ∧
    (∀ entries : List (κ × ν), entries.length ≤ m →
      formatParamsOrDictItems frK frV ffkv W indent0 allowance (some m) compact
          ipl isDict entries =
        formatParamsOrDictItems frK frV ffkv W indent0 allowance none compact
          ipl isDict entries) ∧
    (∀ entries : List (κ × ν), m < entries.length →
      pprintDictModel frK frV ffkv W indent0 allowance (some m) compact ipl entries =
        lb ++ (fmtAll (kvRep frK frV true) ffkv (indent0 + ipl) compact
          (entries.take m) "" (W - ((indent0 + ipl : Nat) : Int) + 1)
          (W - ((indent0 + ipl : Nat) : Int) + 1) ++ ", ...") ++ rb) := by
  have hfi : ∀ (a : Nat) (items : List α), m < items.length →
      formatItems rep ff W indent0 a (some m) compact ipl items =
        (if 1 < ipl then String.mk (List.replicate (ipl - 1) ' ') else "") ++
          (fmtAll rep ff (indent0 + ipl) compact (items.take m) ""
            (W - ((indent0 + ipl : Nat) : Int) + 1)
            (W - ((indent0 + ipl : Nat) : Int) + 1) ++ ", ...") := by
    intro a items hlen
    cases items with
    | nil => simp at hlen
    | cons e rs =>
      rw [formatItems_cons]
      have hrs : m ≤ rs.length := by
        simp only [List.length_cons] at hlen
        omega
      rw [show (some m) = some (0 + m) from by simp]
      rw [fmtLoop_over_limit rep ff (indent0 + ipl) a compact m e rs ""
        (W - ((indent0 + ipl : Nat) : Int) + 1)
        (W - ((indent0 + ipl : Nat) : Int) + 1) 0 hrs]
  have hkv : ∀ (a : Nat) (entries : List (κ × ν)) (d : Bool), m < entries.length →
      formatParamsOrDictItems frK frV ffkv W indent0 a (some m) compact
          ipl d entries =
        fmtAll (kvRep frK frV d) ffkv (indent0 + ipl) compact
          (entries.take m) "" (W - ((indent0 + ipl : Nat) : Int) + 1)
          (W - ((indent0 + ipl : Nat) : Int) + 1) ++ ", ..." := by
    intro a entries d hlen
    cases entries with
    | nil => simp at hlen
    | cons e rs =>
      rw [formatKV_cons]
      have hrs : m ≤ rs.length := by
        simp only [List.length_cons] at hlen
        omega
      rw [show (some m) = some (0 + m) from by simp]
      rw [fmtLoop_over_limit (kvRep frK frV d) ffkv (indent0 + ipl) a
        compact m e rs "" (W - ((indent0 + ipl : Nat) : Int) + 1)
        (W - ((indent0 + ipl : Nat) : Int) + 1) 0 hrs]
  refine ⟨?_, ?_, fun entries h => hkv allowance entries isDict h, ?_, ?_⟩
  · intro items hlen
    unfold pprintListModel
    rw [hfi (allowance + 1) items hlen]
  · intro items hlen
    cases items with
    | nil => rfl
    | cons e rs =>
      rw [formatItems_cons, formatItems_cons]
      rw [fmtLoop_under_limit rep ff (indent0 + ipl) allowance compact m rs e ""
        (W - ((indent0 + ipl : Nat) : Int) + 1)
        (W - ((indent0 + ipl : Nat) : Int) + 1) 0
        (by simp only [List.length_cons] at hlen; omega)]
  · intro entries hlen
    cases entries with
    | nil => rfl
    | cons e rs =>
      rw [formatKV_cons, formatKV_cons]
      rw [fmtLoop_under_limit (kvRep frK frV isDict) ffkv (indent0 + ipl)
        allowance compact m rs e ""
        (W - ((indent0 + ipl : Nat) : Int) + 1)
        (W - ((indent0 + ipl : Nat) : Int) + 1) 0
        (by simp only [List.length_cons] at hlen; omega)]
  · intro entries hlen
    unfold pprintDictModel
    rw [hkv (allowance + 1) entries true hlen]

/-- Claim C6: one iteration of the compact-mode layout loop (no element
limit configured).  For a non-last entry of flat length `w = len(rep) + 2`:
if `w` fits the remaining width it is consumed on the line after the pending
separator, with the width budget reduced by `w` and the separator becoming
`', '`; if it does not fit, the budget resets to the full line width and the
separator becomes newline+indent (unless no separator is pending, i.e. the
entry is first), after which the entry is consumed if it now fits; otherwise
the entry is emitted through the full recursive rendering with the default
1-column allowance, and the next separator is newline+indent.  For the last
entry the caller-supplied allowance is first subtracted from both width
budgets, and the fall-through full rendering receives that allowance instead
of 1. -/
theorem c6_compact_layout {α : Type} (rep : α → String) (ff : α → Nat → Nat → String)
    (indent allowance : Nat) (ent : α) (delim : String)
    (width maxW : Int) (nItems : Nat) :
    (∀ (e : α) (rs : List α),
      (((rep ent).length : Int) + 2 ≤ width →
        fmtLoop rep ff indent allowance none true ent (e :: rs) delim width maxW nItems =
          delim ++ rep ent ++
            fmtLoop rep ff indent allowance none true e rs ", "
              (width - (((rep ent).length : Int) + 2)) maxW (nItems + 1)) ∧
      (width < ((rep ent).length : Int) + 2 → ((rep ent).length : Int) + 2 ≤ maxW →
        fmtLoop rep ff indent allowance none true ent (e :: rs) delim width maxW nItems =
          (if delim = "" then "" else delimNl indent) ++ rep ent ++
            fmtLoop rep ff indent allowance none true e rs ", "
              (maxW - (((rep ent).length : Int) + 2)) maxW (nItems + 1)) ∧
      (width < ((rep ent).length : Int) + 2 → maxW < ((rep ent).length : Int) + 2 →
        fmtLoop rep ff indent allowance none true ent (e :: rs) delim width maxW nItems =
          (if delim = "" then "" else delimNl indent) ++ ff ent indent 1 ++
            fmtLoop rep ff indent allowance none true e rs (delimNl indent)
              maxW maxW (nItems + 1))) ∧
    ((((rep ent).length : Int) + 2 ≤ width - allowance →
        fmtLoop rep ff indent allowance none true ent [] delim width maxW nItems =
          delim ++ rep ent) ∧
      (width - allowance < ((rep ent).length : Int) + 2 →
        ((rep ent).length : Int) + 2 ≤ maxW - allowance →
        fmtLoop rep ff indent allowance none true ent [] delim width maxW nItems =
          (if delim = "" then "" else delimNl indent) ++ rep ent) ∧
      (width - allowance < ((rep ent).length : Int) + 2 →
        maxW - allowance < ((rep ent).length : Int) + 2 →
        fmtLoop rep ff indent allowance none true ent [] delim width maxW nItems =
          (if delim = "" then "" else delimNl indent) ++ ff ent indent allowance)) := by
  have hg : ∀ n : Nat, ¬ ((none : Option Nat) = some n) := by simp
  constructor
  · intro e rs
    refine ⟨fun hfit => ?_, fun hnofit hmax => ?_, fun hnofit hmax => ?_⟩
    · rw [fmtLoop_eq, if_neg (hg nItems)]
      simp only [List.isEmpty_cons, Bool.false_eq_true, if_false,
        eq_self_iff_true, true_and]
      have hreset : ¬ (width < ((rep ent).length : Int) + 2) := by omega
      rw [if_neg hreset,
        if_neg (fun hh : (width < ((rep ent).length : Int) + 2) ∧ delim ≠ "" =>
          hreset hh.1),
        if_pos hfit]
    · rw [fmtLoop_eq, if_neg (hg nItems)]
      simp only [List.isEmpty_cons, Bool.false_eq_true, if_false,
        eq_self_iff_true, true_and]
      rw [if_pos hnofit]
      have hdelim : (if (width < ((rep ent).length : Int) + 2) ∧ delim ≠ ""
          then delimNl indent else delim) =
          (if delim = "" then "" else delimNl indent) := by
        by_cases hd : delim = ""
        · rw [if_neg (fun hh => hh.2 hd), if_pos hd, hd]
        · rw [if_pos ⟨hnofit, hd⟩, if_neg hd]
      rw [hdelim, if_pos hmax]
    · rw [fmtLoop_eq, if_neg (hg nItems)]
      simp only [List.isEmpty_cons, Bool.false_eq_true, if_false,
        eq_self_iff_true, true_and]
      rw [if_pos hnofit]
      have hdelim : (if (width < ((rep ent).length : Int) + 2) ∧ delim ≠ ""
          then delimNl indent else delim) =
          (if delim = "" then "" else delimNl indent) := by
        by_cases hd : delim = ""
        · rw [if_neg (fun hh => hh.2 hd), if_pos hd, hd]
        · rw [if_pos ⟨hnofit, hd⟩, if_neg hd]
      rw [hdelim]
      have hnf : ¬ (((rep ent).length : Int) + 2 ≤ maxW) := by omega
      rw [if_neg hnf]
  · refine ⟨fun hfit => ?_, fun hnofit hmax => ?_, fun hnofit hmax => ?_⟩
    · rw [fmtLoop_eq, if_neg (hg nItems)]
      simp only [List.isEmpty_nil, eq_self_iff_true, true_and, if_true]
      have hreset : ¬ (width - allowance < ((rep ent).length : Int) + 2) := by omega
      rw [if_neg hreset,
        if_neg (fun hh : (width - allowance < ((rep ent).length : Int) + 2) ∧
            delim ≠ "" => hreset hh.1),
        if_pos hfit]
      simp
    · rw [fmtLoop_eq, if_neg (hg nItems)]
      simp only [List.isEmpty_nil, eq_self_iff_true, true_and, if_true]
      rw [if_pos hnofit]
      have hdelim : (if (width - allowance < ((rep ent).length : Int) + 2) ∧ delim ≠ ""
          then delimNl indent else delim) =
          (if delim = "" then "" else delimNl indent) := by
        by_cases hd : delim = ""
        · rw [if_neg (fun hh => hh.2 hd), if_pos hd, hd]
        · rw [if_pos ⟨hnofit, hd⟩, if_neg hd]
      rw [hdelim, if_pos hmax]
      simp
    · rw [fmtLoop_eq, if_neg (hg nItems)]
      simp only [List.isEmpty_nil, eq_self_iff_true, true_and, if_true]
      rw [if_pos hnofit]
      have hdelim : (if (width - allowance < ((rep ent).length : Int) + 2) ∧ delim ≠ ""
          then delimNl indent else delim) =
          (if delim = "" then "" else delimNl indent) := by
        by_cases hd : delim = ""
        · rw [if_neg (fun hh => hh.2 hd), if_pos hd, hd]
        · rw [if_pos ⟨hnofit, hd⟩, if_neg hd]
      rw [hdelim]
      have hnf : ¬ (((rep ent).length : Int) + 2 ≤ maxW - allowance) := by omega
      rw [if_neg hnf]
      simp

theorem c4_witness :
    pprintListModel (fun n : Nat => toString n) (fun _ _ _ => "F") 80 0 0
        (some 2) true 1 [1, 2, 3] =
      "[" ++ ((if 1 < 1 then String.mk (List.replicate (1 - 1) ' ') else "") ++
        (fmtAll (fun n : Nat => toString n) (fun _ _ _ => "F") (0 + 1) true
          ([1, 2, 3].take 2) "" (80 - ((0 + 1 : Nat) : Int) + 1)
          (80 - ((0 + 1 : Nat) : Int) + 1) ++ ", ...")) ++ "]" ∧
    formatItems (fun n : Nat => toString n) (fun _ _ _ => "F") 80 0 0 (some 5)
        true 1 [1, 2] =
      formatItems (fun n : Nat => toString n) (fun _ _ _ => "F") 80 0 0 none
        true 1 [1, 2] :=
  ⟨(c4_element_count (fun n : Nat => toString n) (fun _ _ _ => "F")
      (fun s : String => s) (fun s : String => s) (fun _ _ _ => "G")
      80 0 0 2 true 1 true).1 [1, 2, 3] (by decide),
    (c4_element_count (fun n : Nat => toString n) (fun _ _ _ => "F")
      (fun s : String => s) (fun s : String => s) (fun _ _ _ => "G")
      80 0 0 5 true 1 true).2.1 [1, 2] (by decide)⟩

theorem c6_witness :
    fmtLoop (fun n : Nat => toString n) (fun _ _ _ => "F") 4 0 none true
        7 [8] "x" 10 20 0 =
      "x" ++ toString 7 ++
        fmtLoop (fun n : Nat => toString n) (fun _ _ _ => "F") 4 0 none true
          8 [] ", " (10 - (((toString 7).length : Int) + 2)) 20 1 ∧
    fmtLoop (fun n : Nat => toString n) (fun _ _ _ => "F") 4 2 none true
        5 [] "d" 3 3 0 =
      (if ("d" : String) = "" then "" else delimNl 4) ++
        (fun _ _ _ => "F") 5 4 2 :=
  ⟨((c6_compact_layout (fun n : Nat => toString n) (fun _ _ _ => "F") 4 0
      7 "x" 10 20 0).1 8 []).1 (by decide),
    ((c6_compact_layout (fun n : Nat => toString n) (fun _ _ _ => "F") 4 2
      5 "d" 3 3 0).2).2.2 (by decide) (by decide)⟩

theorem nbCount_append (l1 l2 : List Char) :
    nbCount (l1 ++ l2) = nbCount l1 + nbCount l2 := by
  unfold nbCount
  rw [List.filter_append, List.length_append]

theorem nbCount_reverse (l : List Char) : nbCount l.reverse = nbCount l := by
  unfold nbCount
  rw [List.filter_reverse, List.length_reverse]

theorem matchSome?_spec : ∀ (cs : List Char) (k : Nat), matchSome? cs = some k →
    1 ≤ k ∧ k ≤ cs.length ∧
      ∃ pre c, cs.take k = pre ++ [c] ∧ (∀ b ∈ pre, pyBlank b = true) ∧
        pyBlank c = false := by
  intro cs
  induction cs with
  | nil => intro k hk; simp [matchSome?] at hk
  | cons c cs ih =>
    intro k hk
    by_cases hb : pyBlank c = true
    · simp only [matchSome?, hb, if_true] at hk
      cases hm : matchSome? cs with
      | none => rw [hm] at hk; simp at hk
      | some k' =>
        rw [hm] at hk
        simp only [Option.map_some'] at hk
        obtain rfl : k' + 1 = k := Option.some.inj hk
        obtain ⟨h1, h2, pre, c', hpre, hblank, hnb⟩ := ih k' hm
        refine ⟨by omega, by simp; omega, c :: pre, c', ?_, ?_, hnb⟩
        · simp [List.take_succ_cons, hpre]
        · intro b hb'
          rcases List.mem_cons.mp hb' with rfl | hmem
          · exact hb
          · exact hblank b hmem
    · simp only [matchSome?, hb] at hk
      rw [if_neg (by simp_all)] at hk
      obtain rfl : 1 = k := Option.some.inj hk
      refine ⟨le_refl 1, by simp, [], c, by simp, by simp, ?_⟩
      simp_all

theorem matchSome?_count {cs : List Char} {k : Nat} (hk : matchSome? cs = some k) :
    nbCount (cs.take k) = 1 := by
  obtain ⟨_, _, pre, c, hpre, hblank, hnb⟩ := matchSome?_spec cs k hk
  rw [hpre, nbCount_append]
  have h1 : nbCount pre = 0 := by
    unfold nbCount
    rw [List.length_eq_zero]
    rw [List.filter_eq_nil_iff]
    intro b hb
    simp [hblank b hb]
  have h2 : nbCount [c] = 1 := by
    unfold nbCount
    simp [hnb]
  omega

theorem matchSome?_isSome : ∀ (cs : List Char), 0 < nbCount cs →
    ∃ k, matchSome? cs = some k := by
  intro cs
  induction cs with
  | nil => intro h; simp [nbCount] at h
  | cons c cs ih =>
    intro h
    by_cases hb : pyBlank c = true
    · have h' : 0 < nbCount cs := by
        unfold nbCount at h ⊢
        simp only [List.filter_cons, hb, Bool.not_true] at h
        simpa using h
      obtain ⟨k, hk⟩ := ih h'
      exact ⟨k + 1, by simp [matchSome?, hb, hk]⟩
    · exact ⟨1, by simp [matchSome?, hb]⟩

theorem matchEnd?_spec : ∀ (n : Nat) (cs : List Char) (L : Nat),
    matchEnd? n cs = some L →
    L ≤ cs.length ∧ nbCount (cs.take L) = n ∧
      (1 ≤ n → ∃ pre c, cs.take L = pre ++ [c] ∧ pyBlank c = false) := by
  intro n
  induction n with
  | zero =>
    intro cs L hL
    simp only [matchEnd?] at hL
    obtain rfl : 0 = L := Option.some.inj hL
    simp [nbCount]
  | succ n ih =>
    intro cs L hL
    simp only [matchEnd?] at hL
    cases hm : matchSome? cs with
    | none => rw [hm] at hL; simp at hL
    | some k =>
      rw [hm] at hL
      simp only [Option.some_bind] at hL
      cases hm2 : matchEnd? n (cs.drop k) with
      | none => rw [hm2] at hL; simp at hL
      | some L' =>
        rw [hm2] at hL
        simp only [Option.map_some'] at hL
        obtain rfl : k + L' = L := Option.some.inj hL
        obtain ⟨hk1, hk2, pre, c, hpre, hblank, hnb⟩ := matchSome?_spec cs k hm
        obtain ⟨hL1, hL2, hL3⟩ := ih (cs.drop k) L' hm2
        have htake : cs.take (k + L') = cs.take k ++ (cs.drop k).take L' :=
          List.take_add _ _ _
        refine ⟨?_, ?_, ?_⟩
        · have := List.length_drop k cs
          omega
        · rw [htake, nbCount_append, matchSome?_count hm, hL2]
          omega
        · intro _
          by_cases hn : 1 ≤ n
          · obtain ⟨pre', c', hpre', hnb'⟩ := hL3 hn
            exact ⟨cs.take k ++ pre', c', by rw [htake, hpre', List.append_assoc], hnb'⟩
          · have hn0 : n = 0 := by omega
            subst hn0
            simp only [matchEnd?] at hm2
            obtain rfl : 0 = L' := Option.some.inj hm2
            exact ⟨pre, c, by simpa using hpre, hnb⟩

theorem matchEnd?_isSome : ∀ (n : Nat) (cs : List Char), n ≤ nbCount cs →
    ∃ L, matchEnd? n cs = some L := by
  intro n
  induction n with
  | zero => intro cs _; exact ⟨0, rfl⟩
  | succ n ih =>
    intro cs hn
    obtain ⟨k, hk⟩ := matchSome?_isSome cs (by omega)
    have hsplit : nbCount cs = nbCount (cs.take k) + nbCount (cs.drop k) := by
      rw [← nbCount_append, List.take_append_drop]
    have hrest : n ≤ nbCount (cs.drop k) := by
      rw [matchSome?_count hk] at hsplit
      omega
    obtain ⟨L', hL'⟩ := ih (cs.drop k) hrest
    exact ⟨k + L', by simp [matchEnd?, hk, hL']⟩

theorem matchNl?_spec : ∀ (cs : List Char) (k : Nat), matchNl? cs = some k →
    1 ≤ k ∧ k ≤ cs.length := by
  intro cs
  induction cs with
  | nil => intro k hk; simp [matchNl?] at hk
  | cons c cs ih =>
    intro k hk
    by_cases hc : c = '\n'
    · simp only [matchNl?, hc, if_true] at hk
      obtain rfl : 1 = k := Option.some.inj hk
      simp
    · simp only [matchNl?, hc, if_false] at hk
      cases hm : matchNl? cs with
      | none => rw [hm] at hk; simp at hk
      | some k' =>
        rw [hm] at hk
        simp only [Option.map_some'] at hk
        obtain rfl : k' + 1 = k := Option.some.inj hk
        obtain ⟨h1, h2⟩ := ih k' hm
        exact ⟨by omega, by simp; omega⟩

theorem matchNl?_isSome : ∀ (cs : List Char), '\n' ∈ cs →
    ∃ k, matchNl? cs = some k := by
  intro cs
  induction cs with
  | nil => simp
  | cons c cs ih =>
    intro hmem
    by_cases hc : c = '\n'
    · exact ⟨1, by simp [matchNl?, hc]⟩
    · rcases List.mem_cons.mp hmem with rfl | hmem'
      · exact absurd rfl hc
      · obtain ⟨k, hk⟩ := ih hmem'
        exact ⟨k + 1, by simp [matchNl?, hc, hk]⟩

/-- Claim C2 (amended): with a budget of at least 2, a string whose non-blank
character count is within the budget is returned unchanged; otherwise the
left cut point is the end of the match of `(\s*\S){N//2}` (N//2 non-blank
characters, the cut falling right after a non-blank character), the right
cut point is the same match on the reversed string, extended to the next
newline of the reversed string when the clipped middle region contains a
newline, and the result replaces the middle with `...` exactly when
`left_lim + 3 < len - right_lim`, in which case the result is strictly
shorter than the original. (The original claim that the truncated string's
non-blank count never exceeds the original's is false: `...` inserts three
new non-blank characters while the region removed may hold fewer non-blank
characters than it has total characters.) -/
theorem c2_truncation (nCharMax : Nat) (s : String) (hN : 2 ≤ nCharMax) :
    (nbCount s.toList ≤ nCharMax → reprTruncate nCharMax s = some s) ∧
    (nCharMax < nbCount s.toList →
      ∃ L R0 R : Nat,
        matchEnd? (nCharMax / 2) s.toList = some L ∧
        matchEnd? (nCharMax / 2) s.toList.reverse = some R0 ∧
        nbCount (s.toList.take L) = nCharMax / 2 ∧
        nbCount (s.toList.reverse.take R0) = nCharMax / 2 ∧
        (∃ pre c, s.toList.take L = pre ++ [c] ∧ pyBlank c = false) ∧
        ('\n' ∉ pySliceNeg s.toList L R0 → R = R0) ∧
        ('\n' ∈ pySliceNeg s.toList L R0 →
          ∃ k, matchNl? (s.toList.reverse.drop R0) = some k ∧ R = R0 + k) ∧
        1 ≤ R ∧ R ≤ s.toList.length ∧
        reprTruncate nCharMax s =
          some (if (L : Int) + 3 < (s.toList.length : Int) - (R : Int)
            then String.mk (s.toList.take L ++ ['.', '.', '.'] ++
              pyTailSlice s.toList R)
            else s) ∧
        ((L : Int) + 3 < (s.toList.length : Int) - (R : Int) →
          (String.mk (s.toList.take L ++ ['.', '.', '.'] ++
            pyTailSlice s.toList R)).length < s.length)) := by
  constructor
  · intro hle
    unfold reprTruncate
    rw [if_neg (by omega)]
  · intro hgt
    have hlim : nCharMax / 2 ≤ nbCount s.toList := by
      have := Nat.div_le_self nCharMax 2
      omega
    obtain ⟨L, hL⟩ := matchEnd?_isSome (nCharMax / 2) s.toList hlim
    obtain ⟨R0, hR0⟩ := matchEnd?_isSome (nCharMax / 2) s.toList.reverse
      (by rw [nbCount_reverse]; exact hlim)
    obtain ⟨hLlen, hLcount, hLlast⟩ := matchEnd?_spec _ _ _ hL
    obtain ⟨hR0len, hR0count, _⟩ := matchEnd?_spec _ _ _ hR0
    have hlim1 : 1 ≤ nCharMax / 2 := by omega
    have hR0pos : 1 ≤ R0 := by
      by_contra hc
      have : R0 = 0 := by omega
      subst this
      simp [nbCount] at hR0count
      omega
    have hR0len' : R0 ≤ s.toList.length := by
      rw [List.length_reverse] at hR0len
      exact hR0len
    have hrevdrop : s.toList.reverse.drop R0 =
        (s.toList.take (s.toList.length - R0)).reverse := by
      rw [List.reverse_take]
      congr 1
      omega
    have hlen3 : ∀ (R : Nat), 1 ≤ R → R ≤ s.toList.length →
        ((L : Int) + 3 < (s.toList.length : Int) - (R : Int) →
          (String.mk (s.toList.take L ++ ['.', '.', '.'] ++
            pyTailSlice s.toList R)).length < s.length) := by
      intro R hR1 hRlen hguard
      have h1 : (String.mk (s.toList.take L ++ ['.', '.', '.'] ++
          pyTailSlice s.toList R)).length =
          (s.toList.take L).length + 3 + (pyTailSlice s.toList R).length := by
        show (s.toList.take L ++ ['.', '.', '.'] ++
          pyTailSlice s.toList R).length = _
        simp [List.length_append]
        omega
      have h2 : (s.toList.take L).length = L := by
        rw [List.length_take]
        omega
      have h3 : (pyTailSlice s.toList R).length = R := by
        unfold pyTailSlice
        rw [if_neg (by omega), List.length_drop]
        omega
      have h4 : s.length = s.toList.length := rfl
      omega
    by_cases hnl : '\n' ∈ pySliceNeg s.toList L R0
    · have hmem : '\n' ∈ s.toList.reverse.drop R0 := by
        rw [hrevdrop, List.mem_reverse]
        unfold pySliceNeg at hnl
        rw [if_neg (by omega)] at hnl
        exact List.mem_of_mem_drop hnl
      obtain ⟨k, hk⟩ := matchNl?_isSome _ hmem
      obtain ⟨hk1, hk2⟩ := matchNl?_spec _ _ hk
      have hklen : k ≤ s.toList.length - R0 := by
        rw [hrevdrop, List.length_reverse, List.length_take] at hk2
        omega
      refine ⟨L, R0, R0 + k, hL, hR0, hLcount, hR0count, hLlast hlim1,
        fun hc => absurd hnl hc, fun _ => ⟨k, hk, rfl⟩, by omega, by omega,
        ?_, hlen3 (R0 + k) (by omega) (by omega)⟩
      unfold reprTruncate
      rw [if_pos (by omega)]
      simp only [hL, hR0, Option.some_bind]
      rw [if_pos hnl, hk]
      simp only [Option.map_some', Option.some_bind]
    · refine ⟨L, R0, R0, hL, hR0, hLcount, hR0count, hLlast hlim1,
        fun _ => rfl, fun hc => absurd hc hnl, by omega, by omega,
        ?_, hlen3 R0 (by omega) (by omega)⟩
      unfold reprTruncate
      rw [if_pos (by omega)]
      simp only [hL, hR0, Option.some_bind]
      rw [if_neg hnl]
      simp only [Option.map_some', Option.some_bind]

/-- Counterexample to claim C2 as stated: the 705-character string
`'a'*351 + '   ' + 'b'*351` has 702 non-blank characters, exceeding the
700 budget; truncation removes the 3 blanks and 2 non-blanks between the
cut points but inserts the 3 non-blank characters `...`, so the result has
703 non-blank characters - more than the original. -/
theorem c2_counterexample :
    700 < nbCount (List.replicate 351 'a' ++ [' ', ' ', ' '] ++
      List.replicate 351 'b') ∧
    ((reprTruncate 700 (String.mk (List.replicate 351 'a' ++ [' ', ' ', ' '] ++
      List.replicate 351 'b'))).isSome = true) ∧
    nbCount (List.replicate 351 'a' ++ [' ', ' ', ' '] ++
      List.replicate 351 'b') <
      nbCount ((reprTruncate 700 (String.mk (List.replicate 351 'a' ++
        [' ', ' ', ' '] ++ List.replicate 351 'b'))).getD (String.mk [])).toList := by
  set_option maxRecDepth 10000 in decide

/-- Witness for C2: the amended theorem applied at budget 4 and the concrete
string `ab cd e`. -/
theorem c2_witness :
    2 ≤ 4 ∧
    ((nbCount ("ab cd e" : String).toList ≤ 4 →
        reprTruncate 4 "ab cd e" = some "ab cd e") ∧
     (4 < nbCount ("ab cd e" : String).toList →
       ∃ L R0 R : Nat,
         matchEnd? (4 / 2) ("ab cd e" : String).toList = some L ∧
         matchEnd? (4 / 2) ("ab cd e" : String).toList.reverse = some R0 ∧
         nbCount (("ab cd e" : String).toList.take L) = 4 / 2 ∧
         nbCount (("ab cd e" : String).toList.reverse.take R0) = 4 / 2 ∧
         (∃ pre c, ("ab cd e" : String).toList.take L = pre ++ [c] ∧
           pyBlank c = false) ∧
         ('\n' ∉ pySliceNeg ("ab cd e" : String).toList L R0 → R = R0) ∧
         ('\n' ∈ pySliceNeg ("ab cd e" : String).toList L R0 →
           ∃ k, matchNl? (("ab cd e" : String).toList.reverse.drop R0) = some k ∧
             R = R0 + k) ∧
         1 ≤ R ∧ R ≤ ("ab cd e" : String).toList.length ∧
         reprTruncate 4 "ab cd e" =
           some (if (L : Int) + 3 <
               ((("ab cd e" : String).toList.length : Int)) - (R : Int)
             then String.mk (("ab cd e" : String).toList.take L ++
               ['.', '.', '.'] ++ pyTailSlice ("ab cd e" : String).toList R)
             else "ab cd e") ∧
         ((L : Int) + 3 < ((("ab cd e" : String).toList.length : Int)) - (R : Int) →
           (String.mk (("ab cd e" : String).toList.take L ++ ['.', '.', '.'] ++
             pyTailSlice ("ab cd e" : String).toList R)).length <
             ("ab cd e" : String).length))) :=
  ⟨by decide, c2_truncation 4 "ab cd e" (by decide)⟩
